import Mathlib

/-!
Shallow embedding of `src/xmanager.py` (class `XManager`) and proofs about its
serialization and path policies.

The Python runtime values that can appear as user fields of an `XManager`
instance are modelled by the inductive type `PyVal`; `numpy` arrays by `Nd`.
The methods `jsonfy`, `get_params`, `_is_dir`, `_ensure_dir`, `get_path` and
`save_params` are translated one-to-one.  The Python standard-library
collaborators the source calls (`os.path.splitext`, `os.path.dirname`,
`os.path.join`, `pathlib.Path.mkdir`, `json.dump`/`json.load`) are modelled
faithfully to their CPython semantics on POSIX paths; the numeric domain of the
model is `Int` (floating-point values are outside the model).
-/

namespace XManager

/-- Model of a `numpy.ndarray` with integer entries: either a 0-dimensional
scalar or a node holding sub-arrays.  `ndarray.tolist` recursively converts it
to nested Python lists (a scalar for the 0-dimensional case). -/
inductive Nd where
  | leaf (n : Int)
  | node (xs : List Nd)

/-- Model of the Python runtime values relevant to `XManager`:
`None`, `bool`, `int`, `str`, `numpy.ndarray`, `dict`, `list`, `tuple`,
objects exposing a `__dict__` attribute mapping (constructor `obj`), and
objects of some named type that have no `__dict__` and are not
JSON-serializable, such as a live file handle (constructor `exotic`). -/
inductive PyVal where
  | none
  | bool (b : Bool)
  | int (n : Int)
  | str (s : String)
  | ndarray (a : Nd)
  | dict (kvs : List (PyVal × PyVal))
  | list (xs : List PyVal)
  | tuple (xs : List PyVal)
  | obj (attrs : List (String × PyVal))
  | exotic (typeName : String)

/-- Errors surfacing from the modelled operations: Python `TypeError` (raised
by `jsonfy` and by `json.dump`), `KeyError` (raised by `del d[k]` on a missing
key), and the `OSError` subclasses raised by `pathlib.Path.mkdir`. -/
inductive PyErr where
  | typeError (msg : String)
  | keyError (k : String)
  | fileExistsError (p : String)
  | fileNotFoundError (p : String)
  deriving DecidableEq

mutual

/-- Structural boolean equality on `Nd`. -/
def beqNd : Nd → Nd → Bool
  | .leaf n, .leaf m => n == m
  | .node xs, .node ys => beqNdL xs ys
  | _, _ => false
termination_by structural a => a

/-- Structural boolean equality on lists of `Nd`. -/
def beqNdL : List Nd → List Nd → Bool
  | [], [] => true
  | x :: xs, y :: ys => beqNd x y && beqNdL xs ys
  | _, _ => false
termination_by structural xs => xs

end

mutual

/-- Structural boolean equality on `PyVal`. -/
def beqV : PyVal → PyVal → Bool
  | .none, .none => true
  | .bool a, .bool b => a == b
  | .int a, .int b => a == b
  | .str a, .str b => a == b
  | .ndarray a, .ndarray b => beqNd a b
  | .dict a, .dict b => beqKV a b
  | .list a, .list b => beqL a b
  | .tuple a, .tuple b => beqL a b
  | .obj a, .obj b => beqAttrs a b
  | .exotic a, .exotic b => a == b
  | _, _ => false
termination_by structural a => a

/-- Structural boolean equality on lists of `PyVal`. -/
def beqL : List PyVal → List PyVal → Bool
  | [], [] => true
  | x :: xs, y :: ys => beqV x y && beqL xs ys
  | _, _ => false
termination_by structural xs => xs

/-- Structural boolean equality on key-value lists. -/
def beqKV : List (PyVal × PyVal) → List (PyVal × PyVal) → Bool
  | [], [] => true
  | (k, v) :: xs, (k', v') :: ys => beqV k k' && beqV v v' && beqKV xs ys
  | _, _ => false
termination_by structural xs => xs

/-- Structural boolean equality on attribute lists. -/
def beqAttrs : List (String × PyVal) → List (String × PyVal) → Bool
  | [], [] => true
  | (k, v) :: xs, (k', v') :: ys => k == k' && beqV v v' && beqAttrs xs ys
  | _, _ => false
termination_by structural xs => xs

end

mutual

theorem beqNd_iff : ∀ a b : Nd, beqNd a b = true ↔ a = b
  | .leaf n, b => by cases b <;> simp [beqNd]
  | .node xs, b => by
    cases b <;> simp [beqNd]
    case node ys => exact beqNdL_iff xs ys
termination_by structural a => a

theorem beqNdL_iff : ∀ xs ys : List Nd, beqNdL xs ys = true ↔ xs = ys
  | [], ys => by cases ys <;> simp [beqNdL]
  | x :: xs, ys => by
    cases ys with
    | nil => simp [beqNdL]
    | cons y ys => simp [beqNdL, beqNd_iff x y, beqNdL_iff xs ys]
termination_by structural xs => xs

end

mutual

theorem beqV_iff : ∀ a b : PyVal, beqV a b = true ↔ a = b
  | .none, b => by cases b <;> simp [beqV]
  | .bool a, b => by cases b <;> simp [beqV]
  | .int a, b => by cases b <;> simp [beqV]
  | .str a, b => by cases b <;> simp [beqV]
  | .ndarray a, b => by cases b <;> simp [beqV, beqNd_iff]
  | .dict kvs, b => by
    cases b <;> simp [beqV]
    case dict kvs' => exact beqKV_iff kvs kvs'
  | .list xs, b => by
    cases b <;> simp [beqV]
    case list ys => exact beqL_iff xs ys
  | .tuple xs, b => by
    cases b <;> simp [beqV]
    case tuple ys => exact beqL_iff xs ys
  | .obj a, b => by
    cases b <;> simp [beqV]
    case obj a' => exact beqAttrs_iff a a'
  | .exotic t, b => by cases b <;> simp [beqV]
termination_by structural a => a

theorem beqL_iff : ∀ xs ys : List PyVal, beqL xs ys = true ↔ xs = ys
  | [], ys => by cases ys <;> simp [beqL]
  | x :: xs, ys => by
    cases ys with
    | nil => simp [beqL]
    | cons y ys => simp [beqL, beqV_iff x y, beqL_iff xs ys]
termination_by structural xs => xs

theorem beqKV_iff : ∀ xs ys : List (PyVal × PyVal), beqKV xs ys = true ↔ xs = ys
  | [], ys => by cases ys <;> simp [beqKV]
  | (k, v) :: xs, ys => by
    cases ys with
    | nil => simp [beqKV]
    | cons kv ys =>
      cases kv
      simp [beqKV, beqV_iff, beqKV_iff xs ys, and_assoc]
termination_by structural xs => xs

theorem beqAttrs_iff : ∀ xs ys : List (String × PyVal), beqAttrs xs ys = true ↔ xs = ys
  | [], ys => by cases ys <;> simp [beqAttrs]
  | (k, v) :: xs, ys => by
    cases ys with
    | nil => simp [beqAttrs]
    | cons kv ys =>
      cases kv
      simp [beqAttrs, beqV_iff, beqAttrs_iff xs ys, and_assoc]
termination_by structural xs => xs

end

instance : DecidableEq Nd := fun a b => decidable_of_iff (beqNd a b = true) (beqNd_iff a b)

instance : DecidableEq PyVal := fun a b => decidable_of_iff (beqV a b = true) (beqV_iff a b)

instance {ε α : Type} [DecidableEq ε] [DecidableEq α] : DecidableEq (Except ε α)
  | .error a, .error b =>
    if h : a = b then .isTrue (by rw [h]) else .isFalse (fun hh => h (by injection hh))
  | .error _, .ok _ => .isFalse (fun hh => Except.noConfusion hh)
  | .ok _, .error _ => .isFalse (fun hh => Except.noConfusion hh)
  | .ok a, .ok b =>
    if h : a = b then .isTrue (by rw [h]) else .isFalse (fun hh => h (by injection hh))

mutual

/-- Model of `numpy.ndarray.tolist`: a 0-dimensional array yields its scalar,
a higher-dimensional array yields a nested Python list, row-major. -/
def ndTolist : Nd → PyVal
  | .leaf n => .int n
  | .node xs => .list (ndTolistL xs)

/-- `tolist` mapped over the sub-arrays of a node. -/
def ndTolistL : List Nd → List PyVal
  | [] => []
  | x :: xs => ndTolist x :: ndTolistL xs

end

mutual

/-- Model of `XManager.jsonfy` (src/xmanager.py lines 87-122), branch for
branch in source order:
`np.ndarray` is converted by `tolist()`; a `dict` is rebuilt with the same
keys (keys are not converted) and recursively converted values; a `list` or
`tuple` becomes a list of recursively converted elements; a value without a
`__dict__` is returned unchanged when `json.dumps` accepts it (`None`, `bool`,
`int`, `str`) and otherwise raises
`TypeError: Type "<t>" is not JSON-serializable.`; finally an object exposing
`__dict__` is converted to a dict over its attributes with recursively
converted values.  A raised exception propagates outward, aborting the
enclosing comprehension or loop at the first failing element. -/
def jsonfy : PyVal → Except PyErr PyVal
  | .ndarray a => .ok (ndTolist a)
  | .dict kvs =>
    match jsonfyVals kvs with
    | .error e => .error e
    | .ok out => .ok (.dict out)
  | .list xs =>
    match jsonfyList xs with
    | .error e => .error e
    | .ok out => .ok (.list out)
  | .tuple xs =>
    match jsonfyList xs with
    | .error e => .error e
    | .ok out => .ok (.list out)
  | .none => .ok .none
  | .bool b => .ok (.bool b)
  | .int n => .ok (.int n)
  | .str s => .ok (.str s)
  | .exotic t => .error (.typeError ("Type \"" ++ t ++ "\" is not JSON-serializable."))
  | .obj attrs =>
    match jsonfyAttrs attrs with
    | .error e => .error e
    | .ok out => .ok (.dict out)

/-- The dict comprehension of `jsonfy`'s `dict` branch: keys are kept
unchanged, values are recursively converted, in iteration order. -/
def jsonfyVals : List (PyVal × PyVal) → Except PyErr (List (PyVal × PyVal))
  | [] => .ok []
  | (k, v) :: rest =>
    match jsonfy v with
    | .error e => .error e
    | .ok w =>
      match jsonfyVals rest with
      | .error e => .error e
      | .ok ws => .ok ((k, w) :: ws)

/-- The list comprehension of `jsonfy`'s `list`/`tuple` branch. -/
def jsonfyList : List PyVal → Except PyErr (List PyVal)
  | [] => .ok []
  | x :: rest =>
    match jsonfy x with
    | .error e => .error e
    | .ok y =>
      match jsonfyList rest with
      | .error e => .error e
      | .ok ys => .ok (y :: ys)

/-- The `__dict__` walk of `jsonfy`'s object branch: each attribute name (a
Python string) becomes a dict key, each value is recursively converted. -/
def jsonfyAttrs : List (String × PyVal) → Except PyErr (List (PyVal × PyVal))
  | [] => .ok []
  | (k, v) :: rest =>
    match jsonfy v with
    | .error e => .error e
    | .ok w =>
      match jsonfyAttrs rest with
      | .error e => .error e
      | .ok ws => .ok ((.str k, w) :: ws)

end

mutual

/-- Every value, at every nesting depth, is directly JSON-representable:
the value is `None`, a boolean, a number, a string, a list of such values, or
a dict whose values are again such values.  Dict keys are not constrained by
this predicate (key representability is the subject of a separate claim). -/
def jsonValues : PyVal → Bool
  | .none => true
  | .bool _ => true
  | .int _ => true
  | .str _ => true
  | .list xs => jsonValuesL xs
  | .dict kvs => jsonValuesKV kvs
  | _ => false

/-- `jsonValues` over the elements of a list. -/
def jsonValuesL : List PyVal → Bool
  | [] => true
  | x :: xs => jsonValues x && jsonValuesL xs

/-- `jsonValues` over the values of a key-value list. -/
def jsonValuesKV : List (PyVal × PyVal) → Bool
  | [] => true
  | (_, v) :: kvs => jsonValues v && jsonValuesKV kvs

end

mutual

/-- The strict JSON data model: scalars, arrays, and objects whose keys are
all strings.  Values satisfying this predicate are exactly those that
`json.dump` writes without key coercion and that `json.load` can return. -/
def strictJson : PyVal → Bool
  | .none => true
  | .bool _ => true
  | .int _ => true
  | .str _ => true
  | .list xs => strictJsonL xs
  | .dict kvs => strictJsonKV kvs
  | _ => false

/-- `strictJson` over the elements of a list. -/
def strictJsonL : List PyVal → Bool
  | [] => true
  | x :: xs => strictJson x && strictJsonL xs

/-- `strictJson` over a key-value list: keys must be strings. -/
def strictJsonKV : List (PyVal × PyVal) → Bool
  | [] => true
  | (k, v) :: kvs => (match k with | .str _ => true | _ => false) && strictJson v && strictJsonKV kvs

end

/-- The in-memory state of an `XManager` instance: the internal `x_dir`
attribute (absolute path of the run directory, assigned first in `__init__`)
and the user fields subsequently assigned by the caller, in assignment order.
Python stores both in the instance's `__dict__`, with `x_dir` first. -/
structure XMState where
  x_dir : String
  fields : List (String × PyVal)
  deriving DecidableEq

/-- The instance `__dict__` of an `XManager`: the `x_dir` attribute followed
by the user fields. -/
def selfDict (ctx : XMState) : List (String × PyVal) :=
  ("x_dir", .str ctx.x_dir) :: ctx.fields

/-- Whether a Python dict key equals the string `s` (Python `==` between a
key of any type and a `str`: only a `str` key can compare equal). -/
def keyIsStr : PyVal → String → Bool
  | .str t, s => t == s
  | _, _ => false

/-- Model of `XManager.get_params` (src/xmanager.py lines 124-127):
`params = XManager.jsonfy(self)` converts the instance through the object
branch of `jsonfy` (an `XManager` is not an ndarray, dict, list or tuple and
has a `__dict__`), then `del params['x_dir']` removes the entry whose key is
the string `'x_dir'` (raising `KeyError` were it absent) and the remaining
dict is returned. -/
def get_params (ctx : XMState) : Except PyErr PyVal :=
  match jsonfy (.obj (selfDict ctx)) with
  | .error e => .error e
  | .ok (.dict kvs) =>
    if kvs.any (fun kv => keyIsStr kv.1 "x_dir") then
      .ok (.dict (kvs.filter (fun kv => !keyIsStr kv.1 "x_dir")))
    else
      .error (.keyError "x_dir")
  | .ok _ => .error (.typeError "argument of type delete is not subscriptable")

/-! ### Structural facts about `jsonfy` -/

theorem jsonValuesL_iff_forall : ∀ xs : List PyVal,
    jsonValuesL xs = true ↔ ∀ x ∈ xs, jsonValues x = true
  | [] => by simp [jsonValuesL]
  | x :: xs => by
    simp [jsonValuesL, jsonValuesL_iff_forall xs, List.forall_mem_cons]

theorem jsonValuesKV_iff_forall : ∀ kvs : List (PyVal × PyVal),
    jsonValuesKV kvs = true ↔ ∀ kv ∈ kvs, jsonValues kv.2 = true
  | [] => by simp [jsonValuesKV]
  | (k, v) :: kvs => by
    simp [jsonValuesKV, jsonValuesKV_iff_forall kvs, List.forall_mem_cons]

mutual

theorem ndTolist_jsonValues : ∀ a : Nd, jsonValues (ndTolist a) = true
  | .leaf _ => rfl
  | .node xs => by
    show jsonValues (.list (ndTolistL xs)) = true
    simp only [jsonValues]
    exact ndTolistL_jsonValues xs
termination_by structural a => a

theorem ndTolistL_jsonValues : ∀ xs : List Nd, jsonValuesL (ndTolistL xs) = true
  | [] => rfl
  | x :: xs => by
    show jsonValuesL (ndTolist x :: ndTolistL xs) = true
    simp only [jsonValuesL, Bool.and_eq_true]
    exact ⟨ndTolist_jsonValues x, ndTolistL_jsonValues xs⟩
termination_by structural xs => xs

end

mutual

/-- Whenever `jsonfy` succeeds, every value at every nesting depth of the
result is JSON-representable. -/
theorem jsonfy_jsonValues : ∀ x y, jsonfy x = .ok y → jsonValues y = true
  | .ndarray a, y, h => by
    simp only [jsonfy, Except.ok.injEq] at h
    exact h ▸ ndTolist_jsonValues a
  | .dict kvs, y, h => by
    simp only [jsonfy] at h
    cases hv : jsonfyVals kvs with
    | error e => rw [hv] at h; simp at h
    | ok out =>
      rw [hv] at h
      simp only [Except.ok.injEq] at h
      subst h
      simp only [jsonValues]
      exact jsonfyVals_jsonValues kvs out hv
  | .list xs, y, h => by
    simp only [jsonfy] at h
    cases hv : jsonfyList xs with
    | error e => rw [hv] at h; simp at h
    | ok out =>
      rw [hv] at h
      simp only [Except.ok.injEq] at h
      subst h
      simp only [jsonValues]
      exact jsonfyList_jsonValues xs out hv
  | .tuple xs, y, h => by
    simp only [jsonfy] at h
    cases hv : jsonfyList xs with
    | error e => rw [hv] at h; simp at h
    | ok out =>
      rw [hv] at h
      simp only [Except.ok.injEq] at h
      subst h
      simp only [jsonValues]
      exact jsonfyList_jsonValues xs out hv
  | .none, y, h => by simp only [jsonfy, Except.ok.injEq] at h; subst h; rfl
  | .bool b, y, h => by simp only [jsonfy, Except.ok.injEq] at h; subst h; rfl
  | .int n, y, h => by simp only [jsonfy, Except.ok.injEq] at h; subst h; rfl
  | .str s, y, h => by simp only [jsonfy, Except.ok.injEq] at h; subst h; rfl
  | .exotic t, y, h => by simp only [jsonfy] at h; simp at h
  | .obj attrs, y, h => by
    simp only [jsonfy] at h
    cases hv : jsonfyAttrs attrs with
    | error e => rw [hv] at h; simp at h
    | ok out =>
      rw [hv] at h
      simp only [Except.ok.injEq] at h
      subst h
      simp only [jsonValues]
      exact jsonfyAttrs_jsonValues attrs out hv
termination_by structural x => x

theorem jsonfyVals_jsonValues : ∀ kvs out, jsonfyVals kvs = .ok out → jsonValuesKV out = true
  | [], out, h => by
    simp only [jsonfyVals, Except.ok.injEq] at h
    subst h; rfl
  | (k, v) :: kvs, out, h => by
    simp only [jsonfyVals] at h
    cases hw : jsonfy v with
    | error e => rw [hw] at h; simp at h
    | ok w =>
      rw [hw] at h
      cases hws : jsonfyVals kvs with
      | error e => rw [hws] at h; simp at h
      | ok ws =>
        rw [hws] at h
        simp only [Except.ok.injEq] at h
        subst h
        simp only [jsonValuesKV, Bool.and_eq_true]
        exact ⟨jsonfy_jsonValues v w hw, jsonfyVals_jsonValues kvs ws hws⟩
termination_by structural kvs => kvs

theorem jsonfyList_jsonValues : ∀ xs out, jsonfyList xs = .ok out → jsonValuesL out = true
  | [], out, h => by
    simp only [jsonfyList, Except.ok.injEq] at h
    subst h; rfl
  | x :: xs, out, h => by
    simp only [jsonfyList] at h
    cases hw : jsonfy x with
    | error e => rw [hw] at h; simp at h
    | ok w =>
      rw [hw] at h
      cases hws : jsonfyList xs with
      | error e => rw [hws] at h; simp at h
      | ok ws =>
        rw [hws] at h
        simp only [Except.ok.injEq] at h
        subst h
        simp only [jsonValuesL, Bool.and_eq_true]
        exact ⟨jsonfy_jsonValues x w hw, jsonfyList_jsonValues xs ws hws⟩
termination_by structural xs => xs

theorem jsonfyAttrs_jsonValues : ∀ attrs out, jsonfyAttrs attrs = .ok out → jsonValuesKV out = true
  | [], out, h => by
    simp only [jsonfyAttrs, Except.ok.injEq] at h
    subst h; rfl
  | (k, v) :: attrs, out, h => by
    simp only [jsonfyAttrs] at h
    cases hw : jsonfy v with
    | error e => rw [hw] at h; simp at h
    | ok w =>
      rw [hw] at h
      cases hws : jsonfyAttrs attrs with
      | error e => rw [hws] at h; simp at h
      | ok ws =>
        rw [hws] at h
        simp only [Except.ok.injEq] at h
        subst h
        simp only [jsonValuesKV, Bool.and_eq_true]
        exact ⟨jsonfy_jsonValues v w hw, jsonfyAttrs_jsonValues attrs ws hws⟩
termination_by structural attrs => attrs

end

mutual

/-- Every error `jsonfy` can raise is a `TypeError`. -/
theorem jsonfy_error_typeError : ∀ x e, jsonfy x = .error e → ∃ s, e = .typeError s
  | .ndarray _, e, h => by simp [jsonfy] at h
  | .dict kvs, e, h => by
    simp only [jsonfy] at h
    cases hv : jsonfyVals kvs with
    | error e' =>
      rw [hv] at h
      simp only [Except.error.injEq] at h
      exact h ▸ jsonfyVals_error_typeError kvs e' hv
    | ok out => rw [hv] at h; simp at h
  | .list xs, e, h => by
    simp only [jsonfy] at h
    cases hv : jsonfyList xs with
    | error e' =>
      rw [hv] at h
      simp only [Except.error.injEq] at h
      exact h ▸ jsonfyList_error_typeError xs e' hv
    | ok out => rw [hv] at h; simp at h
  | .tuple xs, e, h => by
    simp only [jsonfy] at h
    cases hv : jsonfyList xs with
    | error e' =>
      rw [hv] at h
      simp only [Except.error.injEq] at h
      exact h ▸ jsonfyList_error_typeError xs e' hv
    | ok out => rw [hv] at h; simp at h
  | .none, e, h => by simp [jsonfy] at h
  | .bool b, e, h => by simp [jsonfy] at h
  | .int n, e, h => by simp [jsonfy] at h
  | .str s, e, h => by simp [jsonfy] at h
  | .exotic t, e, h => by
    simp only [jsonfy, Except.error.injEq] at h
    exact ⟨_, h.symm⟩
  | .obj attrs, e, h => by
    simp only [jsonfy] at h
    cases hv : jsonfyAttrs attrs with
    | error e' =>
      rw [hv] at h
      simp only [Except.error.injEq] at h
      exact h ▸ jsonfyAttrs_error_typeError attrs e' hv
    | ok out => rw [hv] at h; simp at h
termination_by structural x => x

theorem jsonfyVals_error_typeError : ∀ kvs e, jsonfyVals kvs = .error e → ∃ s, e = .typeError s
  | [], e, h => by simp [jsonfyVals] at h
  | (k, v) :: kvs, e, h => by
    simp only [jsonfyVals] at h
    cases hw : jsonfy v with
    | error e' =>
      rw [hw] at h
      simp only [Except.error.injEq] at h
      exact h ▸ jsonfy_error_typeError v e' hw
    | ok w =>
      rw [hw] at h
      cases hws : jsonfyVals kvs with
      | error e' =>
        rw [hws] at h
        simp only [Except.error.injEq] at h
        exact h ▸ jsonfyVals_error_typeError kvs e' hws
      | ok ws => rw [hws] at h; simp at h
termination_by structural kvs => kvs

theorem jsonfyList_error_typeError : ∀ xs e, jsonfyList xs = .error e → ∃ s, e = .typeError s
  | [], e, h => by simp [jsonfyList] at h
  | x :: xs, e, h => by
    simp only [jsonfyList] at h
    cases hw : jsonfy x with
    | error e' =>
      rw [hw] at h
      simp only [Except.error.injEq] at h
      exact h ▸ jsonfy_error_typeError x e' hw
    | ok w =>
      rw [hw] at h
      cases hws : jsonfyList xs with
      | error e' =>
        rw [hws] at h
        simp only [Except.error.injEq] at h
        exact h ▸ jsonfyList_error_typeError xs e' hws
      | ok ws => rw [hws] at h; simp at h
termination_by structural xs => xs

theorem jsonfyAttrs_error_typeError : ∀ attrs e, jsonfyAttrs attrs = .error e → ∃ s, e = .typeError s
  | [], e, h => by simp [jsonfyAttrs] at h
  | (k, v) :: attrs, e, h => by
    simp only [jsonfyAttrs] at h
    cases hw : jsonfy v with
    | error e' =>
      rw [hw] at h
      simp only [Except.error.injEq] at h
      exact h ▸ jsonfy_error_typeError v e' hw
    | ok w =>
      rw [hw] at h
      cases hws : jsonfyAttrs attrs with
      | error e' =>
        rw [hws] at h
        simp only [Except.error.injEq] at h
        exact h ▸ jsonfyAttrs_error_typeError attrs e' hws
      | ok ws => rw [hws] at h; simp at h
termination_by structural attrs => attrs

end

/-- Key/value specification of a successful `jsonfyVals` run: keys unchanged,
values converted, in order. -/
theorem jsonfyVals_spec : ∀ kvs out, jsonfyVals kvs = .ok out →
    List.Forall₂ (fun kv kv' : PyVal × PyVal => kv'.1 = kv.1 ∧ jsonfy kv.2 = .ok kv'.2) kvs out
  | [], out, h => by
    simp only [jsonfyVals, Except.ok.injEq] at h
    subst h
    exact List.Forall₂.nil
  | (k, v) :: kvs, out, h => by
    simp only [jsonfyVals] at h
    cases hw : jsonfy v with
    | error e => rw [hw] at h; simp at h
    | ok w =>
      rw [hw] at h
      cases hws : jsonfyVals kvs with
      | error e => rw [hws] at h; simp at h
      | ok ws =>
        rw [hws] at h
        simp only [Except.ok.injEq] at h
        subst h
        exact List.Forall₂.cons ⟨rfl, hw⟩ (jsonfyVals_spec kvs ws hws)

/-- Attribute specification of a successful `jsonfyAttrs` run: each attribute
name becomes a string key, each value is converted, in order. -/
theorem jsonfyAttrs_spec : ∀ attrs out, jsonfyAttrs attrs = .ok out →
    List.Forall₂ (fun (a : String × PyVal) (b : PyVal × PyVal) =>
      b.1 = PyVal.str a.1 ∧ jsonfy a.2 = .ok b.2) attrs out
  | [], out, h => by
    simp only [jsonfyAttrs, Except.ok.injEq] at h
    subst h
    exact List.Forall₂.nil
  | (k, v) :: attrs, out, h => by
    simp only [jsonfyAttrs] at h
    cases hw : jsonfy v with
    | error e => rw [hw] at h; simp at h
    | ok w =>
      rw [hw] at h
      cases hws : jsonfyAttrs attrs with
      | error e => rw [hws] at h; simp at h
      | ok ws =>
        rw [hws] at h
        simp only [Except.ok.injEq] at h
        subst h
        exact List.Forall₂.cons ⟨rfl, hw⟩ (jsonfyAttrs_spec attrs ws hws)

/-- Every key of a successful `jsonfyAttrs` output is a string. -/
theorem jsonfyAttrs_keys_str : ∀ attrs out, jsonfyAttrs attrs = .ok out →
    ∀ kv ∈ out, ∃ s, kv.1 = PyVal.str s
  | [], out, h => by
    simp only [jsonfyAttrs, Except.ok.injEq] at h
    subst h
    simp
  | (k, v) :: attrs, out, h => by
    simp only [jsonfyAttrs] at h
    cases hw : jsonfy v with
    | error e => rw [hw] at h; simp at h
    | ok w =>
      rw [hw] at h
      cases hws : jsonfyAttrs attrs with
      | error e => rw [hws] at h; simp at h
      | ok ws =>
        rw [hws] at h
        simp only [Except.ok.injEq] at h
        subst h
        intro kv hkv
        rcases List.mem_cons.mp hkv with heq | hmem
        · exact ⟨k, by rw [heq]⟩
        · exact jsonfyAttrs_keys_str attrs ws hws kv hmem

/-- A member of the attribute list converts into a member of the output. -/
theorem jsonfyAttrs_ok_mem : ∀ attrs out (k : String) (v : PyVal),
    jsonfyAttrs attrs = .ok out → (k, v) ∈ attrs →
    ∃ w, jsonfy v = .ok w ∧ (PyVal.str k, w) ∈ out
  | [], _, _, _, _, hmem => absurd hmem (List.not_mem_nil _)
  | (k', v') :: attrs, out, k, v, h, hmem => by
    simp only [jsonfyAttrs] at h
    cases hw : jsonfy v' with
    | error e => rw [hw] at h; simp at h
    | ok w' =>
      rw [hw] at h
      cases hws : jsonfyAttrs attrs with
      | error e => rw [hws] at h; simp at h
      | ok ws =>
        rw [hws] at h
        simp only [Except.ok.injEq] at h
        subst h
        rcases List.mem_cons.mp hmem with heq | hmem'
        · obtain ⟨rfl, rfl⟩ := Prod.mk.injEq k v k' v' ▸ heq
          exact ⟨w', hw, List.mem_cons_self _ _⟩
        · obtain ⟨w, hjw, hmemout⟩ := jsonfyAttrs_ok_mem attrs ws k v hws hmem'
          exact ⟨w, hjw, List.mem_cons_of_mem _ hmemout⟩

/-- A failing member value makes the whole attribute walk fail. -/
theorem jsonfyAttrs_error_of_mem : ∀ (attrs : List (String × PyVal)) (k : String) (v : PyVal) e,
    (k, v) ∈ attrs → jsonfy v = .error e → ∃ e', jsonfyAttrs attrs = .error e'
  | [], _, _, _, hmem, _ => absurd hmem (List.not_mem_nil _)
  | (k', v') :: attrs, k, v, e, hmem, herr => by
    simp only [jsonfyAttrs]
    cases hw : jsonfy v' with
    | error e0 => exact ⟨e0, rfl⟩
    | ok w =>
      rcases List.mem_cons.mp hmem with heq | hmem'
      · obtain ⟨rfl, rfl⟩ := Prod.mk.injEq k v k' v' ▸ heq
        rw [hw] at herr
        simp at herr
      · obtain ⟨e', he'⟩ := jsonfyAttrs_error_of_mem attrs k v e hmem' herr
        rw [he']
        exact ⟨e', rfl⟩

/-! ### Structure of `get_params` -/

/-- When the attribute walk over the user fields succeeds, `get_params`
returns the resulting dict with the `x_dir` entry deleted. -/
theorem get_params_eq_ok (ctx : XMState) (ws : List (PyVal × PyVal))
    (h : jsonfyAttrs ctx.fields = .ok ws) :
    get_params ctx = .ok (.dict (ws.filter (fun kv => !keyIsStr kv.1 "x_dir"))) := by
  have hself : jsonfy (.obj (selfDict ctx)) =
      .ok (.dict ((PyVal.str "x_dir", PyVal.str ctx.x_dir) :: ws)) := by
    simp only [jsonfy, selfDict, jsonfyAttrs, h]
  simp only [get_params, hself]
  have hkey : keyIsStr (PyVal.str "x_dir") "x_dir" = true := by
    simp [keyIsStr]
  simp [hkey, List.filter_cons]

/-- When the attribute walk over the user fields fails, `get_params`
propagates the error. -/
theorem get_params_eq_error (ctx : XMState) (e : PyErr)
    (h : jsonfyAttrs ctx.fields = .error e) : get_params ctx = .error e := by
  have hself : jsonfy (.obj (selfDict ctx)) = .error e := by
    simp only [jsonfy, selfDict, jsonfyAttrs, h]
  simp only [get_params, hself]

/-- Inversion: a successful `get_params` comes from a successful attribute
walk followed by deletion of the `x_dir` entry. -/
theorem get_params_ok_inv (ctx : XMState) (p : PyVal) (h : get_params ctx = .ok p) :
    ∃ ws, jsonfyAttrs ctx.fields = .ok ws ∧
      p = .dict (ws.filter (fun kv => !keyIsStr kv.1 "x_dir")) := by
  cases hv : jsonfyAttrs ctx.fields with
  | error e => rw [get_params_eq_error ctx e hv] at h; simp at h
  | ok ws =>
    refine ⟨ws, rfl, ?_⟩
    rw [get_params_eq_ok ctx ws hv] at h
    simp only [Except.ok.injEq] at h
    exact h.symm

/-! ### Claims C1-C4, C7, C10 -/

/-- C1: for every run context on which serialization succeeds, `get_params`
returns a JSON object (a dict whose keys are all strings) all of whose
values, at every nesting depth, are JSON-representable (`jsonValues`): no
ndarray, tuple, object or other non-JSON leaf remains among the values. -/
theorem get_params_json_object (ctx : XMState) (p : PyVal) (h : get_params ctx = .ok p) :
    ∃ kvs, p = .dict kvs ∧ (∀ kv ∈ kvs, ∃ s, kv.1 = PyVal.str s) ∧ jsonValues p = true := by
  obtain ⟨ws, hws, rfl⟩ := get_params_ok_inv ctx p h
  refine ⟨_, rfl, fun kv hkv => ?_, ?_⟩
  · exact jsonfyAttrs_keys_str ctx.fields ws hws kv (List.mem_of_mem_filter hkv)
  · simp only [jsonValues]
    rw [jsonValuesKV_iff_forall]
    intro kv hkv
    exact (jsonValuesKV_iff_forall ws).mp (jsonfyAttrs_jsonValues _ _ hws) kv
      (List.mem_of_mem_filter hkv)

/-- Witness for C1 at a concrete run context with one user field. -/
theorem get_params_json_object_witness :
    ∃ kvs, (PyVal.dict [(.str "seed", .int 1)]) = .dict kvs ∧
      (∀ kv ∈ kvs, ∃ s, kv.1 = PyVal.str s) ∧
      jsonValues (PyVal.dict [(.str "seed", .int 1)]) = true :=
  get_params_json_object ⟨"/e", [("seed", PyVal.int 1)]⟩ (.dict [(.str "seed", .int 1)]) rfl

/-- C2 counterexample: `jsonfy` does not coerce dict keys to strings.  On the
dict with the integer key `1`, the key of the result is still the integer `1`
and not the string `"1"`: the output is not a JSON object whose keys are
strings. -/
theorem jsonfy_keys_not_coerced_cex :
    jsonfy (.dict [(.int 1, .int 2)]) = .ok (.dict [(.int 1, .int 2)]) ∧
    jsonfy (.dict [(.int 1, .int 2)]) ≠ .ok (.dict [(.str "1", .int 2)]) ∧
    ∀ s, PyVal.int 1 ≠ PyVal.str s := by
  refine ⟨rfl, ?_, fun s h => PyVal.noConfusion h⟩
  intro h
  rw [show jsonfy (.dict [(.int 1, .int 2)]) = .ok (.dict [(.int 1, .int 2)]) from rfl] at h
  simp at h

/-- C2 as amended: for every mapping value reached during conversion,
`jsonfy` returns a dict whose keys are exactly the keys of the input mapping,
unchanged and of their original type (no coercion to strings); each value is
recursively converted.  (Key coercion to strings happens only later, inside
`json.dump`.) -/
theorem jsonfy_dict_keys_unchanged (kvs out : List (PyVal × PyVal))
    (h : jsonfy (.dict kvs) = .ok (.dict out)) :
    List.Forall₂ (fun kv kv' : PyVal × PyVal => kv'.1 = kv.1 ∧ jsonfy kv.2 = .ok kv'.2) kvs out := by
  simp only [jsonfy] at h
  cases hv : jsonfyVals kvs with
  | error e => rw [hv] at h; simp at h
  | ok out' =>
    rw [hv] at h
    simp only [Except.ok.injEq, PyVal.dict.injEq] at h
    exact h ▸ jsonfyVals_spec kvs out' hv

/-- Witness for the amended C2 at a concrete two-entry dict with an integer
key and a nested value. -/
theorem jsonfy_dict_keys_unchanged_witness :
    List.Forall₂ (fun kv kv' : PyVal × PyVal => kv'.1 = kv.1 ∧ jsonfy kv.2 = .ok kv'.2)
      [(.int 1, .int 2), (.str "a", .tuple [.int 3])]
      [(.int 1, .int 2), (.str "a", .list [.int 3])] :=
  jsonfy_dict_keys_unchanged [(.int 1, .int 2), (.str "a", .tuple [.int 3])]
    [(.int 1, .int 2), (.str "a", .list [.int 3])] rfl

/-- C3: whatever user fields are assigned, the mapping returned by a
successful `get_params` never contains the internal root-path key `x_dir`. -/
theorem get_params_excludes_x_dir (ctx : XMState) (p : PyVal) (h : get_params ctx = .ok p) :
    ∃ kvs, p = .dict kvs ∧ ∀ kv ∈ kvs, keyIsStr kv.1 "x_dir" = false := by
  obtain ⟨ws, hws, rfl⟩ := get_params_ok_inv ctx p h
  refine ⟨_, rfl, fun kv hkv => ?_⟩
  have := List.of_mem_filter hkv
  simpa using this

/-- Witness for C3 at a concrete run context with two user fields. -/
theorem get_params_excludes_x_dir_witness :
    ∃ kvs, (PyVal.dict [(.str "a", .int 1), (.str "b", .str "x_dir")]) = .dict kvs ∧
      ∀ kv ∈ kvs, keyIsStr kv.1 "x_dir" = false :=
  get_params_excludes_x_dir ⟨"/e", [("a", PyVal.int 1), ("b", PyVal.str "x_dir")]⟩
    (.dict [(.str "a", .int 1), (.str "b", .str "x_dir")]) rfl

/-- C4: under the strict policy, a value that is not an ndarray, mapping or
sequence, is not directly JSON-representable, and exposes no `__dict__`
(modelled by `PyVal.exotic`) makes `jsonfy` fail with a `TypeError` whose
message names the offending type, and `get_params` propagates a `TypeError`
to the caller whenever such a value is held by a user field. -/
theorem jsonfy_strict_raises (ctx : XMState) (k : String) (t : String)
    (hmem : (k, PyVal.exotic t) ∈ ctx.fields) :
    jsonfy (.exotic t) = .error (.typeError ("Type \"" ++ t ++ "\" is not JSON-serializable.")) ∧
    ∃ s, get_params ctx = .error (.typeError s) := by
  refine ⟨rfl, ?_⟩
  obtain ⟨e', he'⟩ := jsonfyAttrs_error_of_mem ctx.fields k (.exotic t) _ hmem rfl
  obtain ⟨s, rfl⟩ := jsonfyAttrs_error_typeError ctx.fields e' he'
  exact ⟨s, get_params_eq_error ctx _ he'⟩

/-- Witness for C4 at a concrete run context holding a live file handle. -/
theorem jsonfy_strict_raises_witness :
    jsonfy (.exotic "TextIOWrapper") =
      .error (.typeError ("Type \"" ++ "TextIOWrapper" ++ "\" is not JSON-serializable.")) ∧
    ∃ s, get_params ⟨"/e", [("h", PyVal.exotic "TextIOWrapper")]⟩ = .error (.typeError s) :=
  jsonfy_strict_raises ⟨"/e", [("h", PyVal.exotic "TextIOWrapper")]⟩ "h" "TextIOWrapper"
    (List.mem_cons_self _ _)

/-- C7: a user field holding an object that exposes its own attribute
dictionary serializes recursively to a JSON object over those attributes
(each attribute name becomes a string key, each value is recursively
converted); in particular an object with fields `a = 1` and `b = [1, 2, 3]`
serializes as the nested JSON object with entries `"a": 1` and
`"b": [1, 2, 3]`. -/
theorem obj_field_serializes_nested (ctx : XMState) (k : String) (attrs : List (String × PyVal))
    (p : PyVal) (hk : k ≠ "x_dir") (hmem : (k, PyVal.obj attrs) ∈ ctx.fields)
    (h : get_params ctx = .ok p) :
    (∃ kvs conv, p = .dict kvs ∧ (PyVal.str k, PyVal.dict conv) ∈ kvs ∧
      List.Forall₂ (fun (a : String × PyVal) (b : PyVal × PyVal) =>
        b.1 = PyVal.str a.1 ∧ jsonfy a.2 = .ok b.2) attrs conv) ∧
    jsonfy (.obj [("a", .int 1), ("b", .list [.int 1, .int 2, .int 3])]) =
      .ok (.dict [(.str "a", .int 1), (.str "b", .list [.int 1, .int 2, .int 3])]) := by
  refine ⟨?_, rfl⟩
  obtain ⟨ws, hws, rfl⟩ := get_params_ok_inv ctx p h
  obtain ⟨w, hjw, hmemout⟩ := jsonfyAttrs_ok_mem ctx.fields ws k (.obj attrs) hws hmem
  simp only [jsonfy] at hjw
  cases hv : jsonfyAttrs attrs with
  | error e => rw [hv] at hjw; simp at hjw
  | ok conv =>
    rw [hv] at hjw
    simp only [Except.ok.injEq] at hjw
    subst hjw
    refine ⟨_, conv, rfl, ?_, jsonfyAttrs_spec attrs conv hv⟩
    refine List.mem_filter.mpr ⟨hmemout, ?_⟩
    simp [keyIsStr, hk]

/-- Witness for C7 at a concrete run context holding the spec's example
object. -/
theorem obj_field_serializes_nested_witness :
    (∃ kvs conv,
      (PyVal.dict [(.str "o", .dict [(.str "a", .int 1), (.str "b", .list [.int 1, .int 2, .int 3])])]) = .dict kvs ∧
      (PyVal.str "o", PyVal.dict conv) ∈ kvs ∧
      List.Forall₂ (fun (a : String × PyVal) (b : PyVal × PyVal) =>
        b.1 = PyVal.str a.1 ∧ jsonfy a.2 = .ok b.2)
        [("a", PyVal.int 1), ("b", PyVal.list [.int 1, .int 2, .int 3])] conv) ∧
    jsonfy (.obj [("a", .int 1), ("b", .list [.int 1, .int 2, .int 3])]) =
      .ok (.dict [(.str "a", .int 1), (.str "b", .list [.int 1, .int 2, .int 3])]) :=
  obj_field_serializes_nested
    ⟨"/e", [("o", PyVal.obj [("a", .int 1), ("b", .list [.int 1, .int 2, .int 3])])]⟩
    "o" [("a", PyVal.int 1), ("b", PyVal.list [.int 1, .int 2, .int 3])]
    (.dict [(.str "o", .dict [(.str "a", .int 1), (.str "b", .list [.int 1, .int 2, .int 3])])])
    (by decide) (List.mem_cons_self _ _) rfl

/-- C10: the exclusion of the internal path key applies only at the top
level.  A user field (named differently from `x_dir`) holding an object that
itself carries an attribute named `x_dir` still serializes with that nested
`x_dir` key present; only the context's own top-level `x_dir` entry is
removed. -/
theorem nested_x_dir_retained (ctx : XMState) (k : String) (attrs : List (String × PyVal))
    (p : PyVal) (hk : k ≠ "x_dir") (hmem : (k, PyVal.obj attrs) ∈ ctx.fields)
    (hx : "x_dir" ∈ attrs.map Prod.fst) (h : get_params ctx = .ok p) :
    ∃ kvs conv, p = .dict kvs ∧ (PyVal.str k, PyVal.dict conv) ∈ kvs ∧
      ∃ v, (PyVal.str "x_dir", v) ∈ conv := by
  obtain ⟨ws, hws, rfl⟩ := get_params_ok_inv ctx p h
  obtain ⟨w, hjw, hmemout⟩ := jsonfyAttrs_ok_mem ctx.fields ws k (.obj attrs) hws hmem
  simp only [jsonfy] at hjw
  cases hv : jsonfyAttrs attrs with
  | error e => rw [hv] at hjw; simp at hjw
  | ok conv =>
    rw [hv] at hjw
    simp only [Except.ok.injEq] at hjw
    subst hjw
    refine ⟨_, conv, rfl, ?_, ?_⟩
    · refine List.mem_filter.mpr ⟨hmemout, ?_⟩
      simp [keyIsStr, hk]
    · obtain ⟨⟨k0, v0⟩, hv0, hk0⟩ := List.mem_map.mp hx
      simp only at hk0
      subst hk0
      obtain ⟨w0, hjw0, hmem0⟩ := jsonfyAttrs_ok_mem attrs conv _ v0 hv hv0
      exact ⟨w0, hmem0⟩

/-- Witness for C10 at a concrete run context holding an object with a
nested `x_dir` attribute. -/
theorem nested_x_dir_retained_witness :
    ∃ kvs conv,
      (PyVal.dict [(.str "o", .dict [(.str "x_dir", .str "inner")])]) = .dict kvs ∧
      (PyVal.str "o", PyVal.dict conv) ∈ kvs ∧
      ∃ v, (PyVal.str "x_dir", v) ∈ conv :=
  nested_x_dir_retained ⟨"/e", [("o", PyVal.obj [("x_dir", PyVal.str "inner")])]⟩
    "o" [("x_dir", PyVal.str "inner")]
    (.dict [(.str "o", .dict [(.str "x_dir", .str "inner")])])
    (by decide) (List.mem_cons_self _ _) (by decide) rfl

/-! ### Paths and the filesystem

`XManager.__init__` binds `self.x_dir` to an absolute run-directory path; the
model takes that string as given in `XMState.x_dir`.  The path helpers the
source calls are modelled on POSIX semantics (separator `/`), on the
character list underlying a `String`. -/

/-- Model of CPython `posixpath.join` for a single extra component `b`:
an absolute `b` resets the path; otherwise `b` is appended, inserting a `/`
unless the path so far is empty or already ends in `/`. -/
def joinTwo (path b : String) : String :=
  if b.data.head? = some '/' then b
  else if path = "" ∨ path.data.getLast? = some '/' then path ++ b
  else path ++ "/" ++ b

/-- `os.path.join(base, *segs)`: fold `joinTwo` over the segments. -/
def joinPath (base : String) (segs : List String) : String :=
  segs.foldl joinTwo base

/-- On a reversed path component: after its first dot only dots follow (or
there is no dot at all).  Reading the component forwards this says: every
character strictly before the last dot is itself a dot. -/
def trailingDots (l : List Char) : Bool :=
  match l.dropWhile (fun c => !(c == '.')) with
  | [] => true
  | _ :: rest => rest.all (fun c => c == '.')

/-- Model of the emptiness test of the extension returned by
`os.path.splitext` (CPython `genericpath._splitext` with separator `/`):
the extension is empty exactly when, in the final path component, every
character strictly before the last dot is itself a dot (in particular when
there is no dot at all: leading dots of a component do not begin an
extension).  Working on the reversed string, the final component is the
longest slash-free suffix, and the condition reads: after the first dot of
the reversed component, only dots follow. -/
def splitextExtEmpty (p : List Char) : Bool :=
  trailingDots (p.reverse.takeWhile (fun c => !(c == '/')))

/-- Model of `XManager._is_dir` (src/xmanager.py lines 57-62): a path is
treated as a directory exactly when `os.path.splitext` gives it an empty
extension. -/
def _is_dir (path : String) : Bool := splitextExtEmpty path.data

/-- The final path component: the characters after the last `/`. -/
def basenameChars (p : List Char) : List Char :=
  (p.reverse.takeWhile (fun c => !(c == '/'))).reverse

/-- Specification-side reading of "the final path component has no
extension": after the leading dots of the final component, no further dot
occurs.  This is the independent phrasing against which `_is_dir` is
checked. -/
def hasNoExtension (path : String) : Bool :=
  !(((basenameChars path.data).dropWhile (fun c => c == '.')).any (fun c => c == '.'))

/-- Model of CPython `posixpath.dirname`: everything up to and including the
last `/`, with trailing slashes stripped unless the result consists only of
slashes; the empty string when there is no `/`. -/
def dirnameChars (p : List Char) : List Char :=
  if (p.reverse.dropWhile (fun c => !(c == '/'))).isEmpty then []
  else if (p.reverse.dropWhile (fun c => !(c == '/'))).all (fun c => c == '/') then
    (p.reverse.dropWhile (fun c => !(c == '/'))).reverse
  else ((p.reverse.dropWhile (fun c => !(c == '/'))).dropWhile (fun c => c == '/')).reverse

/-- `os.path.dirname` on strings. -/
def dirname (path : String) : String := String.mk (dirnameChars path.data)

/-- The filesystem state visible to the model: the set of existing
directories and the regular files with their contents. -/
structure FS where
  dirs : List String
  files : List (String × String)
  deriving DecidableEq

/-- The ancestor-creating loop of `pathlib.Path.mkdir(parents=True)`:
create the directory and every missing ancestor, stopping at the filesystem
root (`dirname` reaching `\x22\x22` or a fixpoint) or at an ancestor that
already exists.  `dirname` strictly shortens the path in the recursive case,
so `p.length` steps of fuel always reach the stopping condition. -/
def mkdirParents : Nat → List String → String → List String
  | 0, ds, p => p :: ds
  | fuel + 1, ds, p =>
    if dirname p = "" ∨ dirname p = p ∨ dirname p ∈ ds then p :: ds
    else p :: mkdirParents fuel ds (dirname p)

/-- Model of `pathlib.Path(p).mkdir(parents, exist_ok)`: an existing target
raises `FileExistsError` unless `exist_ok`; with `parents` all missing
ancestors are created; without `parents` a missing parent raises
`FileNotFoundError`. -/
def mkdir (fs : FS) (p : String) (parents exist_ok : Bool) : Except PyErr FS :=
  if p ∈ fs.dirs then
    if exist_ok then .ok fs else .error (.fileExistsError p)
  else if parents then .ok ⟨mkdirParents p.data.length fs.dirs p, fs.files⟩
  else if dirname p ∈ fs.dirs then .ok ⟨p :: fs.dirs, fs.files⟩
  else .error (.fileNotFoundError p)

/-- Model of `XManager._ensure_dir` (src/xmanager.py lines 64-70): the path
itself when `_is_dir` holds, otherwise its `dirname`, is created with
`mkdir(parents=True, exist_ok=True)`. -/
def _ensure_dir (fs : FS) (path : String) : Except PyErr FS :=
  mkdir fs (if _is_dir path then path else dirname path) true true

/-- Model of `XManager.get_path` (src/xmanager.py lines 72-85): join
`self.x_dir` with the given components, run `_ensure_dir` on the joined path
when `ensure_dir` is set, and return the joined path. -/
def get_path (ctx : XMState) (fs : FS) (file_or_dir : List String) (ensure_dir : Bool) :
    Except PyErr (String × FS) :=
  let path := joinPath ctx.x_dir file_or_dir
  if ensure_dir then
    match _ensure_dir fs path with
    | .error e => .error e
    | .ok fs' => .ok (path, fs')
  else .ok (path, fs)

/-! ### List and string helpers for path reasoning -/

theorem takeWhile_append_all {α : Type} (p : α → Bool) :
    ∀ (l1 l2 : List α), l1.all p = true → (l1 ++ l2).takeWhile p = l1 ++ l2.takeWhile p
  | [], l2, _ => rfl
  | a :: l1, l2, h => by
    simp only [List.all_cons, Bool.and_eq_true] at h
    simp [List.takeWhile_cons, h.1, takeWhile_append_all p l1 l2 h.2]

theorem dropWhile_append_all {α : Type} (p : α → Bool) :
    ∀ (l1 l2 : List α), l1.all p = true → (l1 ++ l2).dropWhile p = l2.dropWhile p
  | [], l2, _ => rfl
  | a :: l1, l2, h => by
    simp only [List.all_cons, Bool.and_eq_true] at h
    simp [List.dropWhile_cons, h.1, dropWhile_append_all p l1 l2 h.2]

theorem dropWhile_append_not_all {α : Type} (p : α → Bool) :
    ∀ (l1 l2 : List α), l1.all p = false → (l1 ++ l2).dropWhile p = l1.dropWhile p ++ l2
  | [], l2, h => by simp at h
  | a :: l1, l2, h => by
    simp only [List.all_cons, Bool.and_eq_false_iff] at h
    rcases h with h | h
    · simp [List.dropWhile_cons, h]
    · cases hpa : p a with
      | true => simp [List.dropWhile_cons, hpa, dropWhile_append_not_all p l1 l2 h]
      | false => simp [List.dropWhile_cons, hpa]

theorem takeWhile_all_eq_self {α : Type} (p : α → Bool) :
    ∀ l : List α, l.all p = true → l.takeWhile p = l
  | [], _ => rfl
  | a :: l, h => by
    simp only [List.all_cons, Bool.and_eq_true] at h
    simp [List.takeWhile_cons, h.1, takeWhile_all_eq_self p l h.2]

theorem data_append (a b : String) : (a ++ b).data = a.data ++ b.data := rfl

theorem str_eq_of_data_eq (a b : String) (h : a.data = b.data) : a = b := by
  cases a; cases b; exact congrArg String.mk h

theorem ne_empty_of_data_ne_nil (a : String) (h : a.data ≠ []) : a ≠ "" := by
  intro hh
  exact h (by rw [hh])

theorem data_ne_nil_of_ne_empty (a : String) (h : a ≠ "") : a.data ≠ [] := by
  intro hh
  exact h (str_eq_of_data_eq a "" hh)

/-- The reversed longest slash-free suffix of `a ++ '/' :: b` is `b.reverse`
when `b` is slash-free. -/
theorem revTakeWhile_sep (a b : List Char) (hb : b.all (fun c => !(c == '/')) = true) :
    ((a ++ '/' :: b).reverse.takeWhile (fun c => !(c == '/'))) = b.reverse := by
  rw [List.reverse_append, List.reverse_cons, List.append_assoc]
  rw [takeWhile_append_all _ _ _ (by simpa using hb)]
  simp [List.takeWhile_cons]

/-- Dropping the slash-free suffix of the reversal of `a ++ '/' :: b` leaves
`'/' :: a.reverse` when `b` is slash-free. -/
theorem revDropWhile_sep (a b : List Char) (hb : b.all (fun c => !(c == '/')) = true) :
    ((a ++ '/' :: b).reverse.dropWhile (fun c => !(c == '/'))) = '/' :: a.reverse := by
  rw [List.reverse_append, List.reverse_cons, List.append_assoc]
  rw [dropWhile_append_all _ _ _ (by simpa using hb)]
  simp [List.dropWhile_cons]

theorem trailingDots_cons_dot (c : Char) (t : List Char) (hc : (c == '.') = true) :
    trailingDots (c :: t) = t.all (fun c => c == '.') := by
  simp [trailingDots, List.dropWhile_cons, hc]

theorem trailingDots_cons_nondot (c : Char) (t : List Char) (hc : (c == '.') = false) :
    trailingDots (c :: t) = trailingDots t := by
  simp [trailingDots, List.dropWhile_cons, hc]

theorem trailingDots_of_all_dots :
    ∀ l : List Char, l.all (fun c => c == '.') = true → trailingDots l = true
  | [], _ => rfl
  | a :: l, h => by
    simp only [List.all_cons, Bool.and_eq_true] at h
    rw [trailingDots_cons_dot a l h.1]
    exact h.2

/-- Key reversal fact: on a component `l` read in reverse, "after the first
dot only dots follow" is the same as "read forwards, after the leading dots
no dot occurs". -/
theorem trailingDots_eq_leading (l : List Char) :
    trailingDots l = !((l.reverse.dropWhile (fun c => c == '.')).any (fun c => c == '.')) := by
  induction l with
  | nil => rfl
  | cons c t ih =>
    rw [List.reverse_cons]
    have htall : t.all (fun c => c == '.') = t.reverse.all (fun c => c == '.') :=
      (List.all_reverse).symm
    cases hall : t.reverse.all (fun c => c == '.') with
    | true =>
      rw [dropWhile_append_all _ _ _ hall]
      cases hc : c == '.' with
      | true =>
        rw [trailingDots_cons_dot c t hc]
        simp [List.dropWhile_cons, hc, htall, hall]
      | false =>
        rw [trailingDots_cons_nondot c t hc]
        rw [trailingDots_of_all_dots t (htall.trans hall)]
        simp [List.dropWhile_cons, hc]
    | false =>
      rw [dropWhile_append_not_all _ _ _ hall]
      rw [List.any_append]
      cases hc : c == '.' with
      | true =>
        rw [trailingDots_cons_dot c t hc]
        simp [hc, htall.trans hall]
      | false =>
        rw [trailingDots_cons_nondot c t hc]
        simp [hc, ih]

/-- The extension heuristic of `_is_dir` coincides with the spec reading
"the final path component has no extension": no dot occurs after the leading
dots of the final component. -/
theorem is_dir_iff_hasNoExtension (q : String) :
    _is_dir q = true ↔ hasNoExtension q = true := by
  unfold _is_dir splitextExtEmpty hasNoExtension basenameChars
  rw [trailingDots_eq_leading]

/-! ### Facts about `dirname`, `joinPath` and `mkdir` -/

theorem dirname_length_le (p : String) : (dirname p).data.length ≤ p.data.length := by
  show (dirnameChars p.data).length ≤ p.data.length
  have hd : (p.data.reverse.dropWhile (fun c => !(c == '/'))).length ≤ p.data.length := by
    calc (p.data.reverse.dropWhile (fun c => !(c == '/'))).length
        ≤ p.data.reverse.length := (List.dropWhile_sublist _).length_le
      _ = p.data.length := List.length_reverse _
  unfold dirnameChars
  split
  · simp
  · split
    · simpa using hd
    · calc ((p.data.reverse.dropWhile (fun c => !(c == '/'))).dropWhile (fun c => c == '/')).reverse.length
          = ((p.data.reverse.dropWhile (fun c => !(c == '/'))).dropWhile (fun c => c == '/')).length :=
            List.length_reverse _
        _ ≤ (p.data.reverse.dropWhile (fun c => !(c == '/'))).length :=
            (List.dropWhile_sublist _).length_le
        _ ≤ p.data.length := hd

theorem append_sep_data (x s : String) : (x ++ "/" ++ s).data = x.data ++ '/' :: s.data := by
  rw [data_append, data_append]
  rw [List.append_assoc]
  rfl

/-- `dirname` of a path of the form `x ++ "/" ++ s` with slash-free `s` and
`x` nonempty not ending in `/` is `x`. -/
theorem dirname_append (x s : String) (hx : x.data ≠ []) (hxl : x.data.getLast? ≠ some '/')
    (hs : s.data.all (fun c => !(c == '/')) = true) :
    dirname (x ++ "/" ++ s) = x := by
  apply str_eq_of_data_eq
  show dirnameChars (x ++ "/" ++ s).data = x.data
  rw [append_sep_data]
  unfold dirnameChars
  rw [revDropWhile_sep _ _ hs]
  obtain ⟨c, r, hrev⟩ : ∃ c r, x.data.reverse = c :: r := by
    cases hcr : x.data.reverse with
    | nil =>
      have : x.data = [] := by
        have := congrArg List.reverse hcr
        simpa using this
      exact absurd this hx
    | cons c r => exact ⟨c, r, rfl⟩
  have hc : (c == '/') = false := by
    have hlast : x.data.getLast? = some c := by
      rw [← List.head?_reverse, hrev]
      rfl
    cases hcc : (c == '/') with
    | false => rfl
    | true =>
      have hcc' : c = '/' := by simpa using hcc
      exact absurd (by rw [hlast, hcc']) hxl
  rw [hrev]
  rw [if_neg (by simp)]
  rw [if_neg (by simp [hc])]
  have hdw : List.dropWhile (fun c => c == '/') ('/' :: c :: r) = c :: r := by
    simp [List.dropWhile_cons, hc]
  rw [hdw, ← hrev, List.reverse_reverse]

/-- `_is_dir` of a path of the form `x ++ "/" ++ s` with slash-free `s`
depends only on `s`. -/
theorem is_dir_append (x s : String) (hs : s.data.all (fun c => !(c == '/')) = true) :
    _is_dir (x ++ "/" ++ s) = splitextExtEmpty s.data := by
  show splitextExtEmpty (x ++ "/" ++ s).data = splitextExtEmpty s.data
  rw [append_sep_data]
  unfold splitextExtEmpty
  rw [revTakeWhile_sep _ _ hs]
  rw [takeWhile_all_eq_self _ _ (by simpa using hs)]

theorem joinTwo_eq (x s : String) (hsh : s.data.head? ≠ some '/') (hx : x ≠ "")
    (hxl : x.data.getLast? ≠ some '/') : joinTwo x s = x ++ "/" ++ s := by
  unfold joinTwo
  rw [if_neg hsh, if_neg (not_or.mpr ⟨hx, hxl⟩)]

theorem joinPath_one (x s : String) (hsh : s.data.head? ≠ some '/') (hx : x ≠ "")
    (hxl : x.data.getLast? ≠ some '/') : joinPath x [s] = x ++ "/" ++ s :=
  joinTwo_eq x s hsh hx hxl

theorem joinPath_two (x s1 s2 : String) (hs1h : s1.data.head? ≠ some '/')
    (hs2h : s2.data.head? ≠ some '/') (hx : x ≠ "") (hxl : x.data.getLast? ≠ some '/')
    (hs1 : s1.data ≠ []) (hs1l : s1.data.getLast? ≠ some '/') :
    joinPath x [s1, s2] = (x ++ "/" ++ s1) ++ "/" ++ s2 := by
  show joinTwo (joinTwo x s1) s2 = _
  rw [joinTwo_eq x s1 hs1h hx hxl]
  apply joinTwo_eq _ _ hs2h
  · apply ne_empty_of_data_ne_nil
    rw [data_append]
    simp [hs1]
  · rw [data_append, List.getLast?_append_of_ne_nil _ hs1]
    exact hs1l

theorem mkdirParents_mem_self : ∀ fuel ds p, p ∈ mkdirParents fuel ds p
  | 0, _, _ => List.mem_cons_self _ _
  | fuel + 1, ds, p => by
    unfold mkdirParents
    split
    · exact List.mem_cons_self _ _
    · exact List.mem_cons_self _ _

theorem mkdirParents_subset : ∀ fuel ds p q, q ∈ ds → q ∈ mkdirParents fuel ds p
  | 0, _, _, _, h => List.mem_cons_of_mem _ h
  | fuel + 1, ds, p, q, h => by
    unfold mkdirParents
    split
    · exact List.mem_cons_of_mem _ h
    · exact List.mem_cons_of_mem _ (mkdirParents_subset fuel ds (dirname p) q h)

theorem mkdirParents_mem_le : ∀ fuel ds p q, q ∈ mkdirParents fuel ds p →
    q ∈ ds ∨ q.data.length ≤ p.data.length
  | 0, ds, p, q, h => by
    rcases List.mem_cons.mp h with rfl | h
    · exact Or.inr le_rfl
    · exact Or.inl h
  | fuel + 1, ds, p, q, h => by
    unfold mkdirParents at h
    split at h
    · rcases List.mem_cons.mp h with rfl | h
      · exact Or.inr le_rfl
      · exact Or.inl h
    · rcases List.mem_cons.mp h with rfl | h
      · exact Or.inr le_rfl
      · rcases mkdirParents_mem_le fuel ds (dirname p) q h with h1 | h2
        · exact Or.inl h1
        · exact Or.inr (h2.trans (dirname_length_le p))

/-- `mkdir` with `parents=True, exist_ok=True` always succeeds; the target
directory exists afterwards, files are untouched, existing directories
survive, and every new directory is at most as long as the target. -/
theorem mkdir_tt (fs : FS) (p : String) :
    ∃ fs', mkdir fs p true true = .ok fs' ∧ p ∈ fs'.dirs ∧ fs'.files = fs.files ∧
      (∀ q, q ∈ fs.dirs → q ∈ fs'.dirs) ∧
      (∀ q, q ∈ fs'.dirs → q ∈ fs.dirs ∨ q.data.length ≤ p.data.length) := by
  unfold mkdir
  by_cases hp : p ∈ fs.dirs
  · rw [if_pos hp]
    exact ⟨fs, rfl, hp, rfl, fun q h => h, fun q h => Or.inl h⟩
  · rw [if_neg hp]
    refine ⟨⟨mkdirParents p.data.length fs.dirs p, fs.files⟩, rfl,
      mkdirParents_mem_self _ _ _, rfl, fun q h => mkdirParents_subset _ _ _ _ h,
      fun q h => mkdirParents_mem_le _ _ _ _ h⟩

theorem mkdir_mem_ok (fs fs' : FS) (p : String) (h : mkdir fs p true true = .ok fs') :
    p ∈ fs'.dirs := by
  unfold mkdir at h
  by_cases hp : p ∈ fs.dirs
  · rw [if_pos hp] at h
    have heq : fs = fs' := by simpa using h
    exact heq ▸ hp
  · rw [if_neg hp] at h
    have heq : (⟨mkdirParents p.data.length fs.dirs p, fs.files⟩ : FS) = fs' := by
      simpa using h
    rw [← heq]
    exact mkdirParents_mem_self _ _ _

theorem mkdir_idem (fs fs' : FS) (p : String) (h : mkdir fs p true true = .ok fs') :
    mkdir fs' p true true = .ok fs' := by
  unfold mkdir
  rw [if_pos (mkdir_mem_ok fs fs' p h)]
  rfl

theorem ensure_dir_idem (fs fs' : FS) (path : String) (h : _ensure_dir fs path = .ok fs') :
    _ensure_dir fs' path = .ok fs' :=
  mkdir_idem fs fs' (if _is_dir path then path else dirname path) h

/-! ### Claims C8 and C5 -/

/-- C8: calling `get_path` twice with identical arguments returns the same
absolute path string both times; the second call succeeds (does not error)
even though the ensured directory already exists after the first call, and
leaves the filesystem unchanged. -/
theorem get_path_twice (ctx : XMState) (fs : FS) (segs : List String) (ed : Bool)
    (p : String) (fs1 : FS) (h : get_path ctx fs segs ed = .ok (p, fs1)) :
    get_path ctx fs1 segs ed = .ok (p, fs1) := by
  unfold get_path at h ⊢
  cases ed with
  | false =>
    simp only [Bool.false_eq_true, if_false] at h ⊢
    simp only [Except.ok.injEq, Prod.mk.injEq] at h
    obtain ⟨rfl, rfl⟩ := h
    rfl
  | true =>
    rw [if_pos rfl] at h ⊢
    cases he : _ensure_dir fs (joinPath ctx.x_dir segs) with
    | error e => rw [he] at h; simp at h
    | ok fs2 =>
      rw [he] at h
      simp only [Except.ok.injEq, Prod.mk.injEq] at h
      obtain ⟨rfl, rfl⟩ := h
      rw [ensure_dir_idem fs fs2 _ he]

/-- Witness for C8: a concrete repeated `get_path` call. -/
theorem get_path_twice_witness :
    get_path ⟨"/e", []⟩ ⟨["/e/checkpoints", "/e"], []⟩ ["checkpoints"] true =
      .ok ("/e/checkpoints", ⟨["/e/checkpoints", "/e"], []⟩) :=
  get_path_twice ⟨"/e", []⟩ ⟨["/e"], []⟩ ["checkpoints"] true "/e/checkpoints"
    ⟨["/e/checkpoints", "/e"], []⟩ (by decide)


theorem str_append_assoc (a b c : String) : (a ++ b) ++ c = a ++ (b ++ c) :=
  str_eq_of_data_eq _ _ (by simp only [data_append, List.append_assoc])

theorem ensure_dir_of_file (fs : FS) (path : String) (h : _is_dir path = false) :
    _ensure_dir fs path = mkdir fs (dirname path) true true := by
  simp [_ensure_dir, h]

theorem ensure_dir_of_dir (fs : FS) (path : String) (h : _is_dir path = true) :
    _ensure_dir fs path = mkdir fs path true true := by
  simp [_ensure_dir, h]

theorem get_path_ensure (ctx : XMState) (fs : FS) (segs : List String) (fs' : FS)
    (he : _ensure_dir fs (joinPath ctx.x_dir segs) = .ok fs') :
    get_path ctx fs segs true = .ok (joinPath ctx.x_dir segs, fs') := by
  unfold get_path
  rw [if_pos rfl, he]

/-- C5: under the automatic ensure-dir behaviour (`ensure_dir=True`),
`get_path` treats the joined path as a directory exactly when its final
component has no extension (conjunct 4, via `hasNoExtension`); with segments
`figures/plot.png` it creates the directory `figures` but not the file, and
returns the absolute joined path ending in `plot.png`; with `checkpoints` it
creates the directory `checkpoints` itself; in both cases (and for any
segments, conjunct 3) the joined path is returned unconditionally. -/
theorem get_path_extension_heuristic (ctx : XMState) (fs : FS)
    (habs : ctx.x_dir.data.head? = some '/')
    (hxl : ctx.x_dir.data.getLast? ≠ some '/')
    (hnot : (ctx.x_dir ++ "/figures/plot.png") ∉ fs.dirs) :
    (∃ fs1, get_path ctx fs ["figures", "plot.png"] true =
        .ok (ctx.x_dir ++ "/figures/plot.png", fs1) ∧
      (ctx.x_dir ++ "/figures") ∈ fs1.dirs ∧
      (ctx.x_dir ++ "/figures/plot.png") ∉ fs1.dirs ∧
      fs1.files = fs.files ∧
      (ctx.x_dir ++ "/figures/plot.png").data.head? = some '/') ∧
    (∃ fs2, get_path ctx fs ["checkpoints"] true = .ok (ctx.x_dir ++ "/checkpoints", fs2) ∧
      (ctx.x_dir ++ "/checkpoints") ∈ fs2.dirs ∧ fs2.files = fs.files) ∧
    (∀ (segs : List String) (efs : FS), ∃ fs',
      get_path ctx efs segs true = .ok (joinPath ctx.x_dir segs, fs')) ∧
    (∀ q : String, _is_dir q = true ↔ hasNoExtension q = true) := by
  have hxd : ctx.x_dir.data ≠ [] := by
    intro hh
    rw [hh] at habs
    exact Option.noConfusion habs
  have hx : ctx.x_dir ≠ "" := ne_empty_of_data_ne_nil _ hxd
  refine ⟨?_, ?_, ?_, is_dir_iff_hasNoExtension⟩
  · -- figures/plot.png
    have hjoin : joinPath ctx.x_dir ["figures", "plot.png"] =
        (ctx.x_dir ++ "/" ++ "figures") ++ "/" ++ "plot.png" :=
      joinPath_two ctx.x_dir "figures" "plot.png" (by decide) (by decide) hx hxl
        (by decide) (by decide)
    have hfig : ctx.x_dir ++ "/" ++ "figures" = ctx.x_dir ++ "/figures" := by
      apply str_eq_of_data_eq
      simp only [data_append, List.append_assoc]
      congr 1
    have hfull : (ctx.x_dir ++ "/" ++ "figures") ++ "/" ++ "plot.png" =
        ctx.x_dir ++ "/figures/plot.png" := by
      apply str_eq_of_data_eq
      simp only [data_append, List.append_assoc]
      congr 1
    have hisdir : _is_dir ((ctx.x_dir ++ "/" ++ "figures") ++ "/" ++ "plot.png") = false := by
      rw [is_dir_append _ _ (by decide)]
      decide
    have hdirnm : dirname ((ctx.x_dir ++ "/" ++ "figures") ++ "/" ++ "plot.png") =
        ctx.x_dir ++ "/figures" := by
      rw [dirname_append _ _ ?hne ?hlast (by decide)]
      · exact hfig
      case hne =>
        rw [data_append]
        simp
      case hlast =>
        rw [data_append, List.getLast?_append_of_ne_nil _ (by decide)]
        decide
    obtain ⟨fs1, hmk, hmem, hfiles, hsub, hle⟩ := mkdir_tt fs (ctx.x_dir ++ "/figures")
    have he : _ensure_dir fs (joinPath ctx.x_dir ["figures", "plot.png"]) = .ok fs1 := by
      rw [hjoin, ensure_dir_of_file _ _ hisdir, hdirnm, hmk]
    have hlen : ("/figures/plot.png" : String).data.length = 17 := by decide
    have hlen2 : ("/figures" : String).data.length = 8 := by decide
    refine ⟨fs1, ?_, hmem, ?_, hfiles, ?_⟩
    · have := get_path_ensure ctx fs ["figures", "plot.png"] fs1 he
      rw [hjoin, hfull] at this
      exact this
    · intro hin
      rcases hle _ hin with hin' | hlenle
      · exact hnot hin'
      · rw [data_append, data_append, List.length_append, List.length_append,
          hlen, hlen2] at hlenle
        omega
    · rw [data_append, List.head?_append_of_ne_nil _ hxd]
      exact habs
  · -- checkpoints
    have hjoin : joinPath ctx.x_dir ["checkpoints"] = ctx.x_dir ++ "/" ++ "checkpoints" :=
      joinPath_one ctx.x_dir "checkpoints" (by decide) hx hxl
    have hchk : ctx.x_dir ++ "/" ++ "checkpoints" = ctx.x_dir ++ "/checkpoints" := by
      apply str_eq_of_data_eq
      simp only [data_append, List.append_assoc]
      congr 1
    have hisdir : _is_dir (ctx.x_dir ++ "/" ++ "checkpoints") = true := by
      rw [is_dir_append _ _ (by decide)]
      decide
    obtain ⟨fs2, hmk, hmem, hfiles, hsub, hle⟩ := mkdir_tt fs (ctx.x_dir ++ "/checkpoints")
    have he : _ensure_dir fs (joinPath ctx.x_dir ["checkpoints"]) = .ok fs2 := by
      rw [hjoin, ensure_dir_of_dir _ _ hisdir, hchk, hmk]
    refine ⟨fs2, ?_, hmem, hfiles⟩
    have := get_path_ensure ctx fs ["checkpoints"] fs2 he
    rw [hjoin, hchk] at this
    exact this
  · -- unconditional return of the joined path
    intro segs efs
    obtain ⟨fs', hmk, _, _, _, _⟩ := mkdir_tt efs
      (if _is_dir (joinPath ctx.x_dir segs) then joinPath ctx.x_dir segs
       else dirname (joinPath ctx.x_dir segs))
    exact ⟨fs', get_path_ensure ctx efs segs fs' hmk⟩

/-- Witness for C5 at a concrete run context and filesystem. -/
theorem get_path_extension_heuristic_witness :
    (∃ fs1, get_path ⟨"/e", []⟩ ⟨["/e"], []⟩ ["figures", "plot.png"] true =
        .ok ("/e" ++ "/figures/plot.png", fs1) ∧
      ("/e" ++ "/figures") ∈ fs1.dirs ∧
      ("/e" ++ "/figures/plot.png") ∉ fs1.dirs ∧
      fs1.files = FS.files ⟨["/e"], []⟩ ∧
      ("/e" ++ "/figures/plot.png").data.head? = some '/') ∧
    (∃ fs2, get_path ⟨"/e", []⟩ ⟨["/e"], []⟩ ["checkpoints"] true =
        .ok ("/e" ++ "/checkpoints", fs2) ∧
      ("/e" ++ "/checkpoints") ∈ fs2.dirs ∧ fs2.files = FS.files ⟨["/e"], []⟩) ∧
    (∀ (segs : List String) (efs : FS), ∃ fs',
      get_path ⟨"/e", []⟩ efs segs true = .ok (joinPath "/e" segs, fs')) ∧
    (∀ q : String, _is_dir q = true ↔ hasNoExtension q = true) :=
  get_path_extension_heuristic ⟨"/e", []⟩ ⟨["/e"], []⟩ (by decide) (by decide) (by decide)

/-! ### Model of `json.dump(obj, f, indent=2)`

`save_params` writes `json.dump(self.get_params(), f, indent=2)`.  The
CPython encoder with `indent=2`, default separators and `ensure_ascii=True`
is modelled character for character: scalars print as `null`, `true`,
`false`, decimal integers and quoted strings with ASCII escaping; non-empty
containers open with a newline, indent each item by two further spaces,
separate items with a comma plus newline, and close on a fresh line at the
enclosing indent; empty containers print as two brackets.  Dict keys must be
strings, integers, booleans or `None` (coerced to their string form) —
anything else raises `TypeError`, as does any value the encoder does not
know (`ndarray`, objects). -/

/-- Opening curly bracket (character 0x7b). -/
def lbrace : Char := Char.ofNat 123

/-- Closing curly bracket (character 0x7d). -/
def rbrace : Char := Char.ofNat 125

/-- Decimal digits of `n`, most significant first, accumulated onto `acc`;
the fuel is an upper bound on the number of digits (`n` itself suffices). -/
def natCharsAux : Nat → Nat → List Char → List Char
  | 0, _, acc => acc
  | fuel + 1, n, acc =>
    if n < 10 then Nat.digitChar (n % 10) :: acc
    else natCharsAux fuel (n / 10) (Nat.digitChar (n % 10) :: acc)

/-- Decimal representation of a natural number, as `str` produces it. -/
def natChars (n : Nat) : List Char := natCharsAux (n + 1) n []

/-- Decimal representation of an integer, as `str` produces it. -/
def intChars : Int → List Char
  | .ofNat n => natChars n
  | .negSucc m => '-' :: natChars (m + 1)

/-- Four lowercase hex digits of `n % 65536`, as `'\u%04x'` formats them. -/
def hex4 (n : Nat) : List Char :=
  [Nat.digitChar (n / 4096 % 16), Nat.digitChar (n / 256 % 16),
   Nat.digitChar (n / 16 % 16), Nat.digitChar (n % 16)]

/-- The ASCII escaping of one character performed by the CPython JSON
encoder with `ensure_ascii=True`: backslash, quote and the five named
control characters get two-character escapes, printable ASCII passes
through, every other character in the basic plane becomes `\uXXXX`, and
characters beyond it become a UTF-16 surrogate pair of `\uXXXX` escapes. -/
def escChar (c : Char) : List Char :=
  if c == '\\' then ['\\', '\\']
  else if c == '"' then ['\\', '"']
  else if c == '\n' then ['\\', 'n']
  else if c == '\r' then ['\\', 'r']
  else if c == '\t' then ['\\', 't']
  else if c.toNat == 8 then ['\\', 'b']
  else if c.toNat == 12 then ['\\', 'f']
  else if 32 ≤ c.toNat ∧ c.toNat < 127 then [c]
  else if c.toNat < 65536 then '\\' :: 'u' :: hex4 c.toNat
  else ('\\' :: 'u' :: hex4 (55296 + (c.toNat - 65536) / 1024)) ++
       ('\\' :: 'u' :: hex4 (56320 + (c.toNat - 65536) % 1024))

/-- Escape every character of a string body. -/
def escString : List Char → List Char
  | [] => []
  | c :: cs => escChar c ++ escString cs

/-- A JSON string literal: quote, escaped body, quote. -/
def quoteString (s : List Char) : List Char := '"' :: (escString s ++ ['"'])

/-- `indent=2`: two spaces per nesting level. -/
def indentChars (lvl : Nat) : List Char := List.replicate (2 * lvl) ' '

/-- Key coercion of the CPython encoder: string keys are used as given;
integer, boolean and `None` keys are coerced to their string form; any
other key type raises `TypeError`. -/
def coerceKey : PyVal → Except PyErr (List Char)
  | .str s => .ok s.data
  | .int n => .ok (intChars n)
  | .bool true => .ok ("true".data)
  | .bool false => .ok ("false".data)
  | .none => .ok ("null".data)
  | _ => .error (.typeError "keys must be str, int, float, bool or None")

mutual

/-- The value encoder of `json.dump(..., indent=2)` at nesting level `lvl`. -/
def dumpVal : PyVal → Nat → Except PyErr (List Char)
  | .none, _ => .ok ("null".data)
  | .bool true, _ => .ok ("true".data)
  | .bool false, _ => .ok ("false".data)
  | .int n, _ => .ok (intChars n)
  | .str s, _ => .ok (quoteString s.data)
  | .ndarray _, _ => .error (.typeError "Object of type ndarray is not JSON serializable")
  | .obj _, _ => .error (.typeError "Object is not JSON serializable")
  | .exotic t, _ => .error (.typeError ("Object of type " ++ t ++ " is not JSON serializable"))
  | .list xs, lvl => dumpArr xs lvl
  | .tuple xs, lvl => dumpArr xs lvl
  | .dict kvs, lvl => dumpObj kvs lvl

/-- Encode a JSON array at level `lvl`: `[]` when empty, otherwise the
items at level `lvl + 1`, one per line. -/
def dumpArr : List PyVal → Nat → Except PyErr (List Char)
  | [], _ => .ok ("[]".data)
  | x :: rest, lvl =>
    match dumpVal x (lvl + 1) with
    | .error e => .error e
    | .ok first =>
      match dumpArrRest rest (lvl + 1) with
      | .error e => .error e
      | .ok more =>
        .ok ('[' :: '\n' :: (indentChars (lvl + 1) ++ first ++ more ++
          '\n' :: (indentChars lvl ++ [']'])))

/-- Encode the remaining array items, each preceded by `",\n"` and the
item indent. -/
def dumpArrRest : List PyVal → Nat → Except PyErr (List Char)
  | [], _ => .ok []
  | x :: rest, lvl =>
    match dumpVal x lvl with
    | .error e => .error e
    | .ok s =>
      match dumpArrRest rest lvl with
      | .error e => .error e
      | .ok more => .ok (',' :: '\n' :: (indentChars lvl ++ s ++ more))

/-- Encode a JSON object at level `lvl`: two brackets when empty, otherwise
the entries at level `lvl + 1`, one per line, keys coerced and quoted,
separated from the value by a colon and a space. -/
def dumpObj : List (PyVal × PyVal) → Nat → Except PyErr (List Char)
  | [], _ => .ok [lbrace, rbrace]
  | (k, v) :: rest, lvl =>
    match coerceKey k with
    | .error e => .error e
    | .ok kcs =>
      match dumpVal v (lvl + 1) with
      | .error e => .error e
      | .ok vcs =>
        match dumpObjRest rest (lvl + 1) with
        | .error e => .error e
        | .ok more =>
          .ok (lbrace :: '\n' :: (indentChars (lvl + 1) ++ quoteString kcs ++
            ':' :: ' ' :: (vcs ++ more ++ '\n' :: (indentChars lvl ++ [rbrace]))))

/-- Encode the remaining object entries. -/
def dumpObjRest : List (PyVal × PyVal) → Nat → Except PyErr (List Char)
  | [], _ => .ok []
  | (k, v) :: rest, lvl =>
    match coerceKey k with
    | .error e => .error e
    | .ok kcs =>
      match dumpVal v lvl with
      | .error e => .error e
      | .ok vcs =>
        match dumpObjRest rest lvl with
        | .error e => .error e
        | .ok more =>
          .ok (',' :: '\n' :: (indentChars lvl ++ quoteString kcs ++
            ':' :: ' ' :: (vcs ++ more)))

end

/-- `json.dumps(x, indent=2)` as a character list. -/
def dumps (x : PyVal) : Except PyErr (List Char) := dumpVal x 0

/-! ### Model of `json.load`

A recursive-descent parser for the JSON subset the model produces: `null`,
booleans, integers, strings (with full unescaping, including `\uXXXX` and
surrogate pairs), arrays and objects, with arbitrary JSON whitespace between
tokens.  Exactly as `json.load`, parsed objects are dicts with string keys
and parsed arrays are lists.  Lone surrogate escapes are rejected (the model
string type holds Unicode scalar values only), and number syntax is limited
to integers (the model has no floating-point values). -/

/-- JSON whitespace. -/
def wsChar (c : Char) : Bool := c == ' ' || c == '\t' || c == '\n' || c == '\r'

/-- The value of one hexadecimal digit. -/
def hexVal (c : Char) : Option Nat :=
  if 48 ≤ c.toNat ∧ c.toNat ≤ 57 then some (c.toNat - 48)
  else if 97 ≤ c.toNat ∧ c.toNat ≤ 102 then some (c.toNat - 87)
  else if 65 ≤ c.toNat ∧ c.toNat ≤ 70 then some (c.toNat - 55)
  else Option.none

/-- The eight simple escape characters of JSON. -/
def unescSimple : Char → Option Char
  | '"' => some '"'
  | '\\' => some '\\'
  | '/' => some '/'
  | 'b' => some (Char.ofNat 8)
  | 'f' => some (Char.ofNat 12)
  | 'n' => some '\n'
  | 'r' => some '\r'
  | 't' => some '\t'
  | _ => Option.none

/-- Parse four hexadecimal digits. -/
def parseHex4 : List Char → Option (Nat × List Char)
  | a :: b :: c :: d :: rest =>
    match hexVal a, hexVal b, hexVal c, hexVal d with
    | some va, some vb, some vc, some vd => some (((va * 16 + vb) * 16 + vc) * 16 + vd, rest)
    | _, _, _, _ => Option.none
  | _ => Option.none

/-- Parse the remainder of a `\uXXXX` escape (after the `u`): a high
surrogate must be followed by a `\uXXXX` low surrogate and the pair is
combined; a lone surrogate is rejected (the model string type holds Unicode
scalar values only); any other code unit stands for itself. -/
def parseU (s : List Char) : Option (Char × List Char) :=
  match parseHex4 s with
  | some (n, rest) =>
    if 55296 ≤ n ∧ n ≤ 56319 then
      match rest with
      | b1 :: b2 :: rest' =>
        if b1 == '\\' && b2 == 'u' then
          match parseHex4 rest' with
          | some (m, rest2) =>
            if 56320 ≤ m ∧ m ≤ 57343 then
              some (Char.ofNat (65536 + (n - 55296) * 1024 + (m - 56320)), rest2)
            else Option.none
          | _ => Option.none
        else Option.none
      | _ => Option.none
    else if 56320 ≤ n ∧ n ≤ 57343 then Option.none
    else some (Char.ofNat n, rest)
  | _ => Option.none

/-- Parse one escape after the backslash. -/
def parseEsc : List Char → Option (Char × List Char)
  | [] => Option.none
  | e :: rest =>
    if e == 'u' then parseU rest
    else
      match unescSimple e with
      | some uc => some (uc, rest)
      | _ => Option.none

/-- Parse the body of a JSON string after the opening quote, returning the
unescaped characters and the input after the closing quote.  Every step
consumes at least one character, so fuel equal to the input length plus one
always suffices. -/
def parseStrBody : Nat → List Char → Option (List Char × List Char)
  | 0, _ => Option.none
  | fuel + 1, s =>
    match s with
    | [] => Option.none
    | c :: rest =>
      if c == '"' then some ([], rest)
      else if c == '\\' then
        match parseEsc rest with
        | some (uc, rest') =>
          match parseStrBody fuel rest' with
          | some (cs, rem) => some (uc :: cs, rem)
          | _ => Option.none
        | _ => Option.none
      else if 32 ≤ c.toNat then
        match parseStrBody fuel rest with
        | some (cs, rem) => some (c :: cs, rem)
        | _ => Option.none
      else Option.none

/-- Accumulate a run of decimal digits; stops at the first non-digit. -/
def parseDigsAcc : List Char → Nat → Nat × List Char
  | [], acc => (acc, [])
  | c :: cs, acc =>
    if c.isDigit then parseDigsAcc cs (acc * 10 + (c.toNat - 48)) else (acc, c :: cs)

mutual

/-- Parse one JSON value after skipping whitespace.  The fuel dominates the
nesting structure of the value; one unit is spent per value and per array or
object continuation. -/
def parseVal : Nat → List Char → Option (PyVal × List Char)
  | 0, _ => Option.none
  | fuel + 1, s =>
    match s.dropWhile wsChar with
    | [] => Option.none
    | c :: rest =>
      if c == 'n' then
        match rest with
        | 'u' :: 'l' :: 'l' :: r => some (.none, r)
        | _ => Option.none
      else if c == 't' then
        match rest with
        | 'r' :: 'u' :: 'e' :: r => some (.bool true, r)
        | _ => Option.none
      else if c == 'f' then
        match rest with
        | 'a' :: 'l' :: 's' :: 'e' :: r => some (.bool false, r)
        | _ => Option.none
      else if c == '"' then
        match parseStrBody (rest.length + 1) rest with
        | some (cs, r) => some (.str (String.mk cs), r)
        | _ => Option.none
      else if c == '-' then
        match rest with
        | d :: _ =>
          if d.isDigit then
            some (.int (-((parseDigsAcc rest 0).1 : Int)), (parseDigsAcc rest 0).2)
          else Option.none
        | [] => Option.none
      else if c.isDigit then
        some (.int ((parseDigsAcc (c :: rest) 0).1 : Int), (parseDigsAcc (c :: rest) 0).2)
      else if c == '[' then
        if (rest.dropWhile wsChar).head? = some ']' then
          some (.list [], (rest.dropWhile wsChar).tail)
        else
          match parseVal fuel (rest.dropWhile wsChar) with
          | some (x, r2) =>
            match parseArrRest fuel r2 with
            | some (xs, r3) => some (.list (x :: xs), r3)
            | _ => Option.none
          | _ => Option.none
      else if c == lbrace then
        if (rest.dropWhile wsChar).head? = some rbrace then
          some (.dict [], (rest.dropWhile wsChar).tail)
        else
          match parseObjBody fuel (rest.dropWhile wsChar) with
          | some (kvs, r2) => some (.dict kvs, r2)
          | _ => Option.none
      else Option.none

/-- After one array item: a comma and a further item, or the closing
bracket. -/
def parseArrRest : Nat → List Char → Option (List PyVal × List Char)
  | 0, _ => Option.none
  | fuel + 1, s =>
    match s.dropWhile wsChar with
    | ',' :: r =>
      match parseVal fuel r with
      | some (x, r2) =>
        match parseArrRest fuel r2 with
        | some (xs, r3) => some (x :: xs, r3)
        | _ => Option.none
      | _ => Option.none
    | ']' :: r => some ([], r)
    | _ => Option.none

/-- One or more `"key": value` entries separated by commas, then the
closing bracket. -/
def parseObjBody : Nat → List Char → Option (List (PyVal × PyVal) × List Char)
  | 0, _ => Option.none
  | fuel + 1, s =>
    match s.dropWhile wsChar with
    | '"' :: r =>
      match parseStrBody (r.length + 1) r with
      | some (kcs, r2) =>
        match r2.dropWhile wsChar with
        | ':' :: r3 =>
          match parseVal fuel r3 with
          | some (v, r4) =>
            match r4.dropWhile wsChar with
            | c5 :: r5 =>
              if c5 == ',' then
                match parseObjBody fuel r5 with
                | some (kvs, r6) => some ((PyVal.str (String.mk kcs), v) :: kvs, r6)
                | _ => Option.none
              else if c5 == rbrace then some ([(PyVal.str (String.mk kcs), v)], r5)
              else Option.none
            | [] => Option.none
          | _ => Option.none
        | _ => Option.none
      | _ => Option.none
    | _ => Option.none

end

/-- `json.loads`: parse one value and require only whitespace to follow. -/
def loads (s : String) : Option PyVal :=
  match parseVal (s.data.length + 1) s.data with
  | some (v, rest) => if (rest.dropWhile wsChar).isEmpty then some v else Option.none
  | _ => Option.none

/-! ### Round-trip: auxiliary lemmas -/

/-- `String.mk` is a left inverse of `String.data`. -/
theorem mk_data (s : String) : String.mk s.data = s := by cases s; rfl

/-- The input directly after a decimal print may not start with a digit;
the empty input qualifies. -/
def numOk : List Char → Bool
  | [] => true
  | c :: _ => !c.isDigit

/-- Number of decimal digits of `n` (used in proofs only). -/
def dCount (n : Nat) : Nat :=
  if n < 10 then 1 else dCount (n / 10) + 1
termination_by n
decreasing_by exact Nat.div_lt_self (by omega) (by omega)

theorem dCount_lt10 (n : Nat) (h : n < 10) : dCount n = 1 := by
  rw [dCount]
  simp [h]

theorem dCount_ge10 (n : Nat) (h : ¬ n < 10) : dCount n = dCount (n / 10) + 1 := by
  rw [dCount]
  simp [h]

theorem digitChar_isDigit (d : Nat) (h : d < 10) : (Nat.digitChar d).isDigit = true := by
  interval_cases d <;> decide

theorem digitChar_toNat (d : Nat) (h : d < 10) : (Nat.digitChar d).toNat - 48 = d := by
  interval_cases d <;> decide

theorem digitChar_dispatch (d : Nat) (h : d < 10) :
    (Nat.digitChar d == 'n') = false ∧ (Nat.digitChar d == 't') = false ∧
    (Nat.digitChar d == 'f') = false ∧ (Nat.digitChar d == '"') = false ∧
    (Nat.digitChar d == '-') = false ∧ (Nat.digitChar d).isDigit = true ∧
    wsChar (Nat.digitChar d) = false ∧ (Nat.digitChar d == ']') = false := by
  interval_cases d <;> decide

theorem hexVal_digitChar (d : Nat) (h : d < 16) : hexVal (Nat.digitChar d) = some d := by
  interval_cases d <;> decide

theorem parseDigsAcc_digit (m : Nat) (h : m < 10) (cs : List Char) (acc : Nat) :
    parseDigsAcc (Nat.digitChar m :: cs) acc = parseDigsAcc cs (acc * 10 + m) := by
  simp only [parseDigsAcc, digitChar_isDigit m h, if_true]
  rw [digitChar_toNat m h]

theorem natCharsAux_acc : ∀ fuel n tail,
    natCharsAux fuel n tail = natCharsAux fuel n [] ++ tail
  | 0, _, _ => rfl
  | fuel + 1, n, tail => by
    by_cases h10 : n < 10
    · simp [natCharsAux, h10]
    · simp only [natCharsAux, h10, if_false]
      rw [natCharsAux_acc fuel (n / 10) (Nat.digitChar (n % 10) :: tail),
        natCharsAux_acc fuel (n / 10) [Nat.digitChar (n % 10)]]
      simp

theorem parseDigsAcc_natCharsAux : ∀ fuel n tail acc, n < fuel →
    parseDigsAcc (natCharsAux fuel n tail) acc =
      parseDigsAcc tail (acc * 10 ^ dCount n + n)
  | 0, n, _, _, h => absurd h (by omega)
  | fuel + 1, n, tail, acc, h => by
    by_cases h10 : n < 10
    · rw [show natCharsAux (fuel + 1) n tail = Nat.digitChar (n % 10) :: tail from by
        simp [natCharsAux, h10]]
      rw [parseDigsAcc_digit (n % 10) (by omega) tail acc]
      rw [dCount_lt10 n h10]
      congr 1
      omega
    · rw [show natCharsAux (fuel + 1) n tail =
          natCharsAux fuel (n / 10) (Nat.digitChar (n % 10) :: tail) from by
        simp [natCharsAux, h10]]
      rw [parseDigsAcc_natCharsAux fuel (n / 10) _ acc (by omega)]
      rw [parseDigsAcc_digit (n % 10) (by omega) tail _]
      rw [dCount_ge10 n h10]
      congr 1
      have h1 : 10 ^ (dCount (n / 10) + 1) = 10 ^ dCount (n / 10) * 10 := by ring
      have h2 : (acc * 10 ^ dCount (n / 10) + n / 10) * 10 + n % 10 =
          acc * (10 ^ dCount (n / 10) * 10) + (n / 10 * 10 + n % 10) := by ring
      rw [h2, h1]
      congr 1
      omega

theorem parseDigsAcc_stop (tail : List Char) (acc : Nat) (h : numOk tail = true) :
    parseDigsAcc tail acc = (acc, tail) := by
  cases tail with
  | nil => rfl
  | cons c cs =>
    simp only [numOk, Bool.not_eq_true'] at h
    simp [parseDigsAcc, h]

theorem parseDigsAcc_natChars (n : Nat) (rest : List Char) (h : numOk rest = true) :
    parseDigsAcc (natChars n ++ rest) 0 = (n, rest) := by
  have h1 : natChars n ++ rest = natCharsAux (n + 1) n rest := (natCharsAux_acc (n + 1) n rest).symm
  rw [h1, parseDigsAcc_natCharsAux (n + 1) n rest 0 (by omega)]
  rw [parseDigsAcc_stop rest _ h]
  simp

theorem natCharsAux_head : ∀ fuel n tail, n < fuel →
    ∃ m ds, m < 10 ∧ natCharsAux fuel n tail = Nat.digitChar m :: ds
  | 0, n, _, h => absurd h (by omega)
  | fuel + 1, n, tail, h => by
    by_cases h10 : n < 10
    · exact ⟨n % 10, tail, by omega, by simp [natCharsAux, h10]⟩
    · obtain ⟨m, ds, hm, hds⟩ := natCharsAux_head fuel (n / 10) (Nat.digitChar (n % 10) :: tail)
        (by omega)
      exact ⟨m, ds, hm, by simp [natCharsAux, h10, hds]⟩

theorem natChars_head (n : Nat) :
    ∃ m ds, m < 10 ∧ natChars n = Nat.digitChar m :: ds :=
  natCharsAux_head (n + 1) n [] (by omega)

/-! ### Round-trip for string bodies -/

theorem parseHex4_hex4 (n : Nat) (hn : n < 65536) (rest : List Char) :
    parseHex4 (hex4 n ++ rest) = some (n, rest) := by
  show parseHex4 (Nat.digitChar (n / 4096 % 16) :: Nat.digitChar (n / 256 % 16) ::
    Nat.digitChar (n / 16 % 16) :: Nat.digitChar (n % 16) :: rest) = some (n, rest)
  simp only [parseHex4]
  rw [hexVal_digitChar _ (by omega), hexVal_digitChar _ (by omega),
    hexVal_digitChar _ (by omega), hexVal_digitChar _ (by omega)]
  have hrec : (((n / 4096 % 16) * 16 + n / 256 % 16) * 16 + n / 16 % 16) * 16 + n % 16 = n := by
    omega
  simp only [hrec]

theorem parseU_nonsurrogate (s rest : List Char) (n : Nat)
    (h : parseHex4 s = some (n, rest)) (h1 : ¬(55296 ≤ n ∧ n ≤ 56319))
    (h2 : ¬(56320 ≤ n ∧ n ≤ 57343)) :
    parseU s = some (Char.ofNat n, rest) := by
  simp only [parseU, h]
  rw [if_neg h1, if_neg h2]

theorem parseU_highlow (s s2 rest2 : List Char) (n m : Nat)
    (h : parseHex4 s = some (n, '\\' :: 'u' :: s2))
    (hn : 55296 ≤ n ∧ n ≤ 56319)
    (h2 : parseHex4 s2 = some (m, rest2))
    (hm : 56320 ≤ m ∧ m ≤ 57343) :
    parseU s = some (Char.ofNat (65536 + (n - 55296) * 1024 + (m - 56320)), rest2) := by
  simp only [parseU, h]
  rw [if_pos hn]
  rw [if_pos (by decide)]
  simp only [h2]
  rw [if_pos hm]

theorem parseU_u4 (n : Nat) (hn : n < 65536) (hval : n < 55296 ∨ 57343 < n)
    (rest : List Char) :
    parseU (hex4 n ++ rest) = some (Char.ofNat n, rest) :=
  parseU_nonsurrogate _ rest n (parseHex4_hex4 n hn rest) (by omega) (by omega)

theorem parseU_pair (n : Nat) (h1 : 65536 ≤ n) (h2 : n < 1114112) (rest : List Char) :
    parseU (hex4 (55296 + (n - 65536) / 1024) ++
      ('\\' :: 'u' :: (hex4 (56320 + (n - 65536) % 1024) ++ rest))) =
      some (Char.ofNat n, rest) := by
  have hmod : (n - 65536) % 1024 < 1024 := Nat.mod_lt _ (by omega)
  have hstep := parseU_highlow
    (hex4 (55296 + (n - 65536) / 1024) ++ ('\\' :: 'u' :: (hex4 (56320 + (n - 65536) % 1024) ++ rest)))
    (hex4 (56320 + (n - 65536) % 1024) ++ rest) rest
    (55296 + (n - 65536) / 1024) (56320 + (n - 65536) % 1024)
    (parseHex4_hex4 _ (by omega) _)
    (by constructor <;> omega)
    (parseHex4_hex4 _ (by omega) _)
    (by constructor <;> omega)
  rw [hstep]
  have hcomb : 65536 + (55296 + (n - 65536) / 1024 - 55296) * 1024 +
      (56320 + (n - 65536) % 1024 - 56320) = n := by omega
  rw [hcomb]

theorem parseEsc_simple (e uc : Char) (he : (e == 'u') = false)
    (hu : unescSimple e = some uc) (rest : List Char) :
    parseEsc (e :: rest) = some (uc, rest) := by
  simp [parseEsc, he, hu]

theorem parseEsc_u (rest : List Char) : parseEsc ('u' :: rest) = parseU rest := by
  simp [parseEsc]

theorem parseStrBody_quote (fuel : Nat) (rest : List Char) :
    parseStrBody (fuel + 1) ('"' :: rest) = some ([], rest) := by
  simp [parseStrBody]

theorem parseStrBody_slash (fuel : Nat) (rest rest' : List Char) (uc : Char)
    (he : parseEsc rest = some (uc, rest')) :
    parseStrBody (fuel + 1) ('\\' :: rest) =
      match parseStrBody fuel rest' with
      | some (cs, rem) => some (uc :: cs, rem)
      | _ => Option.none := by
  simp [parseStrBody, he]

theorem parseStrBody_plain (fuel : Nat) (c : Char) (rest : List Char)
    (h1 : (c == '"') = false) (h2 : (c == '\\') = false) (h3 : 32 ≤ c.toNat) :
    parseStrBody (fuel + 1) (c :: rest) =
      match parseStrBody fuel rest with
      | some (cs, rem) => some (c :: cs, rem)
      | _ => Option.none := by
  simp [parseStrBody, h1, h2, h3]

/-- Parsing the escaped body of a string recovers it exactly. -/
theorem parseStrBody_escString : ∀ (s : List Char) (fuel : Nat) (tail : List Char),
    s.length < fuel →
    parseStrBody fuel (escString s ++ '"' :: tail) = some (s, tail)
  | [], fuel, tail, h => by
    match fuel, h with
    | fuel + 1, _ =>
      show parseStrBody (fuel + 1) ('"' :: tail) = some ([], tail)
      exact parseStrBody_quote fuel tail
  | c :: s', fuel, tail, h => by
    match fuel, h with
    | fuel + 1, h =>
      have ih := parseStrBody_escString s' fuel tail (by simpa using Nat.lt_of_succ_lt_succ h)
      have hval : c.toNat < 55296 ∨ (57343 < c.toNat ∧ c.toNat < 1114112) := c.valid
      show parseStrBody (fuel + 1) ((escChar c ++ escString s') ++ '"' :: tail) = _
      rw [List.append_assoc]
      by_cases hb : (c == '\\') = true
      · rw [show escChar c = ['\\', '\\'] from by simp [escChar, hb]]
        rw [show ((['\\', '\\'] : List Char) ++ (escString s' ++ '"' :: tail)) =
          '\\' :: '\\' :: (escString s' ++ '"' :: tail) from rfl]
        rw [parseStrBody_slash fuel _ _ '\\' (parseEsc_simple '\\' '\\' rfl rfl _), ih]
        rw [show c = '\\' from by simpa using hb]
      · by_cases hq : (c == '"') = true
        · rw [show escChar c = ['\\', '"'] from by simp [escChar, hb, hq]]
          rw [show ((['\\', '"'] : List Char) ++ (escString s' ++ '"' :: tail)) =
            '\\' :: '"' :: (escString s' ++ '"' :: tail) from rfl]
          rw [parseStrBody_slash fuel _ _ '"' (parseEsc_simple '"' '"' rfl rfl _), ih]
          rw [show c = '"' from by simpa using hq]
        · by_cases hn : (c == '\n') = true
          · rw [show escChar c = ['\\', 'n'] from by simp [escChar, hb, hq, hn]]
            rw [show ((['\\', 'n'] : List Char) ++ (escString s' ++ '"' :: tail)) =
              '\\' :: 'n' :: (escString s' ++ '"' :: tail) from rfl]
            rw [parseStrBody_slash fuel _ _ '\n' (parseEsc_simple 'n' '\n' rfl rfl _), ih]
            rw [show c = '\n' from by simpa using hn]
          · by_cases hr : (c == '\r') = true
            · rw [show escChar c = ['\\', 'r'] from by simp [escChar, hb, hq, hn, hr]]
              rw [show ((['\\', 'r'] : List Char) ++ (escString s' ++ '"' :: tail)) =
                '\\' :: 'r' :: (escString s' ++ '"' :: tail) from rfl]
              rw [parseStrBody_slash fuel _ _ '\r' (parseEsc_simple 'r' '\r' rfl rfl _), ih]
              rw [show c = '\r' from by simpa using hr]
            · by_cases ht : (c == '\t') = true
              · rw [show escChar c = ['\\', 't'] from by simp [escChar, hb, hq, hn, hr, ht]]
                rw [show ((['\\', 't'] : List Char) ++ (escString s' ++ '"' :: tail)) =
                  '\\' :: 't' :: (escString s' ++ '"' :: tail) from rfl]
                rw [parseStrBody_slash fuel _ _ '\t' (parseEsc_simple 't' '\t' rfl rfl _), ih]
                rw [show c = '\t' from by simpa using ht]
              · by_cases h8 : (c.toNat == 8) = true
                · rw [show escChar c = ['\\', 'b'] from by simp [escChar, hb, hq, hn, hr, ht, h8]]
                  rw [show ((['\\', 'b'] : List Char) ++ (escString s' ++ '"' :: tail)) =
                    '\\' :: 'b' :: (escString s' ++ '"' :: tail) from rfl]
                  rw [parseStrBody_slash fuel _ _ (Char.ofNat 8)
                    (parseEsc_simple 'b' (Char.ofNat 8) rfl rfl _), ih]
                  rw [show c = Char.ofNat 8 from by
                    rw [← Char.ofNat_toNat c]
                    congr 1
                    simpa using h8]
                · by_cases h12 : (c.toNat == 12) = true
                  · rw [show escChar c = ['\\', 'f'] from by
                      simp [escChar, hb, hq, hn, hr, ht, h8, h12]]
                    rw [show ((['\\', 'f'] : List Char) ++ (escString s' ++ '"' :: tail)) =
                      '\\' :: 'f' :: (escString s' ++ '"' :: tail) from rfl]
                    rw [parseStrBody_slash fuel _ _ (Char.ofNat 12)
                      (parseEsc_simple 'f' (Char.ofNat 12) rfl rfl _), ih]
                    rw [show c = Char.ofNat 12 from by
                      rw [← Char.ofNat_toNat c]
                      congr 1
                      simpa using h12]
                  · by_cases hpr : 32 ≤ c.toNat ∧ c.toNat < 127
                    · rw [show escChar c = [c] from by
                        simp [escChar, hb, hq, hn, hr, ht, h8, h12, hpr]]
                      rw [show (([c] : List Char) ++ (escString s' ++ '"' :: tail)) =
                        c :: (escString s' ++ '"' :: tail) from rfl]
                      rw [parseStrBody_plain fuel c _ (by simpa using hq) (by simpa using hb)
                        hpr.1, ih]
                    · by_cases hbmp : c.toNat < 65536
                      · rw [show escChar c = '\\' :: 'u' :: hex4 c.toNat from by
                          simp only [escChar, hb, hq, hn, hr, ht, h8, h12, hpr, hbmp]
                          simp]
                        rw [show (('\\' :: 'u' :: hex4 c.toNat) ++ (escString s' ++ '"' :: tail)) =
                          '\\' :: 'u' :: (hex4 c.toNat ++ (escString s' ++ '"' :: tail)) from by
                          simp]
                        have hu : parseEsc ('u' :: (hex4 c.toNat ++ (escString s' ++ '"' :: tail))) =
                            some (Char.ofNat c.toNat, escString s' ++ '"' :: tail) := by
                          rw [parseEsc_u]
                          exact parseU_u4 c.toNat hbmp (by omega) _
                        rw [parseStrBody_slash fuel _ _ (Char.ofNat c.toNat) hu, ih]
                        rw [Char.ofNat_toNat]
                      · rw [show escChar c =
                            ('\\' :: 'u' :: hex4 (55296 + (c.toNat - 65536) / 1024)) ++
                            ('\\' :: 'u' :: hex4 (56320 + (c.toNat - 65536) % 1024)) from by
                          simp only [escChar, hb, hq, hn, hr, ht, h8, h12, hpr, hbmp]
                          simp]
                        rw [show ((('\\' :: 'u' :: hex4 (55296 + (c.toNat - 65536) / 1024)) ++
                            ('\\' :: 'u' :: hex4 (56320 + (c.toNat - 65536) % 1024))) ++
                            (escString s' ++ '"' :: tail)) =
                          '\\' :: 'u' :: (hex4 (55296 + (c.toNat - 65536) / 1024) ++
                            ('\\' :: 'u' :: (hex4 (56320 + (c.toNat - 65536) % 1024) ++
                              (escString s' ++ '"' :: tail)))) from by simp]
                        have hu : parseEsc ('u' :: (hex4 (55296 + (c.toNat - 65536) / 1024) ++
                            ('\\' :: 'u' :: (hex4 (56320 + (c.toNat - 65536) % 1024) ++
                              (escString s' ++ '"' :: tail))))) =
                            some (Char.ofNat c.toNat, escString s' ++ '"' :: tail) := by
                          rw [parseEsc_u]
                          exact parseU_pair c.toNat (by omega) (by omega) _
                        rw [parseStrBody_slash fuel _ _ (Char.ofNat c.toNat) hu, ih]
                        rw [Char.ofNat_toNat]

/-! ### Whitespace, weights and printed shapes -/

theorem dropWhile_ws_cons (c : Char) (h : wsChar c = false) (s : List Char) :
    (c :: s).dropWhile wsChar = c :: s := by
  simp [List.dropWhile_cons, h]

theorem indent_all_ws (k : Nat) : (indentChars k).all wsChar = true := by
  rw [List.all_eq_true]
  intro c hc
  rw [List.eq_of_mem_replicate hc]
  rfl

theorem dropWhile_ws_indent (k : Nat) (s : List Char) :
    (indentChars k ++ s).dropWhile wsChar = s.dropWhile wsChar :=
  dropWhile_append_all _ _ _ (indent_all_ws k)

theorem escChar_length_pos (c : Char) : 1 ≤ (escChar c).length := by
  unfold escChar
  repeat' split
  all_goals simp

theorem escString_length : ∀ s : List Char, s.length ≤ (escString s).length
  | [] => le_rfl
  | c :: s => by
    simp only [escString, List.length_cons, List.length_append]
    have h1 := escChar_length_pos c
    have h2 := escString_length s
    omega

mutual

/-- Fuel weight of a value: the number of `parseVal`, `parseArrRest` and
`parseObjBody` activations needed to parse its printed form. -/
def wV : PyVal → Nat
  | .list xs => wL xs + 1
  | .tuple xs => wL xs + 1
  | .dict kvs => wKV kvs + 1
  | _ => 1

/-- Fuel weight of remaining array items. -/
def wL : List PyVal → Nat
  | [] => 1
  | x :: xs => wV x + wL xs + 1

/-- Fuel weight of remaining object entries. -/
def wKV : List (PyVal × PyVal) → Nat
  | [] => 1
  | (_, v) :: kvs => wV v + wKV kvs + 1

end

theorem wV_pos : ∀ j : PyVal, 1 ≤ wV j
  | .list _ => by simp [wV]
  | .tuple _ => by simp [wV]
  | .dict _ => by simp [wV]
  | .none => le_rfl
  | .bool _ => le_rfl
  | .int _ => le_rfl
  | .str _ => le_rfl
  | .ndarray _ => le_rfl
  | .obj _ => le_rfl
  | .exotic _ => le_rfl

theorem wL_pos (xs : List PyVal) : 1 ≤ wL xs := by
  cases xs <;> simp [wL]

theorem wKV_pos (kvs : List (PyVal × PyVal)) : 1 ≤ wKV kvs := by
  cases kvs with
  | nil => simp [wKV]
  | cons kv kvs => cases kv; simp [wKV]

theorem natChars_ne_nil (n : Nat) : natChars n ≠ [] := by
  obtain ⟨m, ds, hm, hds⟩ := natChars_head n
  rw [hds]
  exact List.cons_ne_nil _ _

theorem intChars_ne_nil (n : Int) : intChars n ≠ [] := by
  cases n with
  | ofNat m => exact natChars_ne_nil m
  | negSucc m => exact List.cons_ne_nil _ _

/-- The printed form of a value begins with a character that is not JSON
whitespace. -/
theorem dumpVal_head : ∀ (j : PyVal) (lvl : Nat) (cs : List Char),
    dumpVal j lvl = .ok cs →
    ∃ c cs', cs = c :: cs' ∧ wsChar c = false ∧ (c == ']') = false
  | .none, lvl, cs, h => by
    simp only [dumpVal, Except.ok.injEq] at h
    exact ⟨'n', _, h.symm, rfl, rfl⟩
  | .bool true, lvl, cs, h => by
    simp only [dumpVal, Except.ok.injEq] at h
    exact ⟨'t', _, h.symm, rfl, rfl⟩
  | .bool false, lvl, cs, h => by
    simp only [dumpVal, Except.ok.injEq] at h
    exact ⟨'f', _, h.symm, rfl, rfl⟩
  | .int n, lvl, cs, h => by
    simp only [dumpVal, Except.ok.injEq] at h
    cases n with
    | ofNat m =>
      obtain ⟨d, ds, hd, hds⟩ := natChars_head m
      refine ⟨Nat.digitChar d, ds, ?_, (digitChar_dispatch d hd).2.2.2.2.2.2.1,
        (digitChar_dispatch d hd).2.2.2.2.2.2.2⟩
      rw [← h]
      exact hds
    | negSucc m =>
      exact ⟨'-', _, h.symm, rfl, rfl⟩
  | .str s, lvl, cs, h => by
    simp only [dumpVal, Except.ok.injEq] at h
    exact ⟨'"', _, h.symm, rfl, rfl⟩
  | .ndarray a, lvl, cs, h => by simp [dumpVal] at h
  | .obj attrs, lvl, cs, h => by simp [dumpVal] at h
  | .exotic t, lvl, cs, h => by simp [dumpVal] at h
  | .list xs, lvl, cs, h => by
    replace h : dumpArr xs lvl = .ok cs := h
    cases xs with
    | nil =>
      simp only [dumpArr, Except.ok.injEq] at h
      exact ⟨'[', _, h.symm, rfl, rfl⟩
    | cons x rest =>
      simp only [dumpArr] at h
      cases h1 : dumpVal x (lvl + 1) with
      | error e => rw [h1] at h; simp at h
      | ok first =>
        rw [h1] at h
        cases h2 : dumpArrRest rest (lvl + 1) with
        | error e => rw [h2] at h; simp at h
        | ok more =>
          rw [h2] at h
          simp only [Except.ok.injEq] at h
          exact ⟨'[', _, h.symm, rfl, rfl⟩
  | .tuple xs, lvl, cs, h => by
    replace h : dumpArr xs lvl = .ok cs := h
    cases xs with
    | nil =>
      simp only [dumpArr, Except.ok.injEq] at h
      exact ⟨'[', _, h.symm, rfl, rfl⟩
    | cons x rest =>
      simp only [dumpArr] at h
      cases h1 : dumpVal x (lvl + 1) with
      | error e => rw [h1] at h; simp at h
      | ok first =>
        rw [h1] at h
        cases h2 : dumpArrRest rest (lvl + 1) with
        | error e => rw [h2] at h; simp at h
        | ok more =>
          rw [h2] at h
          simp only [Except.ok.injEq] at h
          exact ⟨'[', _, h.symm, rfl, rfl⟩
  | .dict kvs, lvl, cs, h => by
    replace h : dumpObj kvs lvl = .ok cs := h
    cases kvs with
    | nil =>
      simp only [dumpObj, Except.ok.injEq] at h
      exact ⟨lbrace, _, h.symm, rfl, rfl⟩
    | cons kv rest =>
      obtain ⟨k, v⟩ := kv
      simp only [dumpObj] at h
      cases h0 : coerceKey k with
      | error e => rw [h0] at h; simp at h
      | ok kcs =>
        rw [h0] at h
        cases h1 : dumpVal v (lvl + 1) with
        | error e => rw [h1] at h; simp at h
        | ok vcs =>
          rw [h1] at h
          cases h2 : dumpObjRest rest (lvl + 1) with
          | error e => rw [h2] at h; simp at h
          | ok more =>
            rw [h2] at h
            simp only [Except.ok.injEq] at h
            exact ⟨lbrace, _, h.symm, rfl, rfl⟩

mutual

/-- The fuel weight of a value is at most the length of its printed form. -/
theorem wV_le : ∀ (j : PyVal) (lvl : Nat) (cs : List Char),
    dumpVal j lvl = .ok cs → wV j ≤ cs.length
  | .none, lvl, cs, h => by
    simp only [dumpVal, Except.ok.injEq] at h
    rw [← h]
    simp [wV]
  | .bool true, lvl, cs, h => by
    simp only [dumpVal, Except.ok.injEq] at h
    rw [← h]
    simp [wV]
  | .bool false, lvl, cs, h => by
    simp only [dumpVal, Except.ok.injEq] at h
    rw [← h]
    simp [wV]
  | .int n, lvl, cs, h => by
    simp only [dumpVal, Except.ok.injEq] at h
    rw [← h]
    show wV (.int n) ≤ (intChars n).length
    have hne := intChars_ne_nil n
    have : 1 ≤ (intChars n).length := by
      cases hc : intChars n with
      | nil => exact absurd hc hne
      | cons a b => simp
    simpa [wV] using this
  | .str s, lvl, cs, h => by
    simp only [dumpVal, Except.ok.injEq] at h
    rw [← h]
    simp [wV, quoteString]
  | .ndarray a, lvl, cs, h => by simp [dumpVal] at h
  | .obj attrs, lvl, cs, h => by simp [dumpVal] at h
  | .exotic t, lvl, cs, h => by simp [dumpVal] at h
  | .list xs, lvl, cs, h => by
    replace h : dumpArr xs lvl = .ok cs := h
    cases xs with
    | nil =>
      simp only [dumpArr, Except.ok.injEq] at h
      rw [← h]
      simp [wV, wL]
    | cons x rest =>
      simp only [dumpArr] at h
      cases h1 : dumpVal x (lvl + 1) with
      | error e => rw [h1] at h; simp at h
      | ok first =>
        rw [h1] at h
        cases h2 : dumpArrRest rest (lvl + 1) with
        | error e => rw [h2] at h; simp at h
        | ok more =>
          rw [h2] at h
          simp only [Except.ok.injEq] at h
          rw [← h]
          have ha := wV_le x (lvl + 1) first h1
          have hb := wL_le rest (lvl + 1) more h2
          simp only [wV, wL, List.length_cons, List.length_append]
          omega
  | .tuple xs, lvl, cs, h => by
    replace h : dumpArr xs lvl = .ok cs := h
    cases xs with
    | nil =>
      simp only [dumpArr, Except.ok.injEq] at h
      rw [← h]
      simp [wV, wL]
    | cons x rest =>
      simp only [dumpArr] at h
      cases h1 : dumpVal x (lvl + 1) with
      | error e => rw [h1] at h; simp at h
      | ok first =>
        rw [h1] at h
        cases h2 : dumpArrRest rest (lvl + 1) with
        | error e => rw [h2] at h; simp at h
        | ok more =>
          rw [h2] at h
          simp only [Except.ok.injEq] at h
          rw [← h]
          have ha := wV_le x (lvl + 1) first h1
          have hb := wL_le rest (lvl + 1) more h2
          simp only [wV, wL, List.length_cons, List.length_append]
          omega
  | .dict kvs, lvl, cs, h => by
    replace h : dumpObj kvs lvl = .ok cs := h
    cases kvs with
    | nil =>
      simp only [dumpObj, Except.ok.injEq] at h
      rw [← h]
      simp [wV, wKV]
    | cons kv rest =>
      obtain ⟨k, v⟩ := kv
      simp only [dumpObj] at h
      cases h0 : coerceKey k with
      | error e => rw [h0] at h; simp at h
      | ok kcs =>
        rw [h0] at h
        cases h1 : dumpVal v (lvl + 1) with
        | error e => rw [h1] at h; simp at h
        | ok vcs =>
          rw [h1] at h
          cases h2 : dumpObjRest rest (lvl + 1) with
          | error e => rw [h2] at h; simp at h
          | ok more =>
            rw [h2] at h
            simp only [Except.ok.injEq] at h
            rw [← h]
            have ha := wV_le v (lvl + 1) vcs h1
            have hb := wKV_le rest (lvl + 1) more h2
            simp only [wV, wKV, List.length_cons, List.length_append]
            omega
termination_by structural j => j

theorem wL_le : ∀ (xs : List PyVal) (lvl : Nat) (cs : List Char),
    dumpArrRest xs lvl = .ok cs → wL xs ≤ cs.length + 1
  | [], lvl, cs, h => by
    simp only [dumpArrRest, Except.ok.injEq] at h
    rw [← h]
    simp [wL]
  | x :: rest, lvl, cs, h => by
    simp only [dumpArrRest] at h
    cases h1 : dumpVal x lvl with
    | error e => rw [h1] at h; simp at h
    | ok scs =>
      rw [h1] at h
      cases h2 : dumpArrRest rest lvl with
      | error e => rw [h2] at h; simp at h
      | ok more =>
        rw [h2] at h
        simp only [Except.ok.injEq] at h
        rw [← h]
        have ha := wV_le x lvl scs h1
        have hb := wL_le rest lvl more h2
        simp only [wL, List.length_cons, List.length_append]
        omega
termination_by structural xs => xs

theorem wKV_le : ∀ (kvs : List (PyVal × PyVal)) (lvl : Nat) (cs : List Char),
    dumpObjRest kvs lvl = .ok cs → wKV kvs ≤ cs.length + 1
  | [], lvl, cs, h => by
    simp only [dumpObjRest, Except.ok.injEq] at h
    rw [← h]
    simp [wKV]
  | (k, v) :: rest, lvl, cs, h => by
    simp only [dumpObjRest] at h
    cases h0 : coerceKey k with
    | error e => rw [h0] at h; simp at h
    | ok kcs =>
      rw [h0] at h
      cases h1 : dumpVal v lvl with
      | error e => rw [h1] at h; simp at h
      | ok vcs =>
        rw [h1] at h
        cases h2 : dumpObjRest rest lvl with
        | error e => rw [h2] at h; simp at h
        | ok more =>
          rw [h2] at h
          simp only [Except.ok.injEq] at h
          rw [← h]
          have ha := wV_le v lvl vcs h1
          have hb := wKV_le rest lvl more h2
          simp only [wKV, List.length_cons, List.length_append]
          omega
termination_by structural kvs => kvs

end

/-- The continuation after an array item never begins with a digit. -/
theorem dumpArrRest_numOk : ∀ (xs : List PyVal) (lvl : Nat) (more tail : List Char),
    dumpArrRest xs lvl = .ok more → numOk (more ++ '\n' :: tail) = true
  | [], lvl, more, tail, h => by
    simp only [dumpArrRest, Except.ok.injEq] at h
    rw [← h]
    rfl
  | x :: rest, lvl, more, tail, h => by
    simp only [dumpArrRest] at h
    cases h1 : dumpVal x lvl with
    | error e => rw [h1] at h; simp at h
    | ok scs =>
      rw [h1] at h
      cases h2 : dumpArrRest rest lvl with
      | error e => rw [h2] at h; simp at h
      | ok more2 =>
        rw [h2] at h
        simp only [Except.ok.injEq] at h
        rw [← h]
        rfl

/-- The continuation after an object value never begins with a digit. -/
theorem dumpObjRest_numOk : ∀ (kvs : List (PyVal × PyVal)) (lvl : Nat) (more tail : List Char),
    dumpObjRest kvs lvl = .ok more → numOk (more ++ '\n' :: tail) = true
  | [], lvl, more, tail, h => by
    simp only [dumpObjRest, Except.ok.injEq] at h
    rw [← h]
    rfl
  | (k, v) :: rest, lvl, more, tail, h => by
    simp only [dumpObjRest] at h
    cases h0 : coerceKey k with
    | error e => rw [h0] at h; simp at h
    | ok kcs =>
      rw [h0] at h
      cases h1 : dumpVal v lvl with
      | error e => rw [h1] at h; simp at h
      | ok vcs =>
        rw [h1] at h
        cases h2 : dumpObjRest rest lvl with
        | error e => rw [h2] at h; simp at h
        | ok more2 =>
          rw [h2] at h
          simp only [Except.ok.injEq] at h
          rw [← h]
          rfl

/-! ### Parser step lemmas

Each lemma advances `parseVal`, `parseArrRest` or `parseObjBody` by one
grammar production, keeping all arguments abstract so that proofs never
force the evaluator on symbolic terms. -/

theorem parseVal_step_null (fuel : Nat) (s r : List Char)
    (h : s.dropWhile wsChar = 'n' :: 'u' :: 'l' :: 'l' :: r) :
    parseVal (fuel + 1) s = some (.none, r) := by
  simp [parseVal, h]

theorem parseVal_step_true (fuel : Nat) (s r : List Char)
    (h : s.dropWhile wsChar = 't' :: 'r' :: 'u' :: 'e' :: r) :
    parseVal (fuel + 1) s = some (.bool true, r) := by
  simp [parseVal, h]

theorem parseVal_step_false (fuel : Nat) (s r : List Char)
    (h : s.dropWhile wsChar = 'f' :: 'a' :: 'l' :: 's' :: 'e' :: r) :
    parseVal (fuel + 1) s = some (.bool false, r) := by
  simp [parseVal, h]

theorem parseVal_step_str (fuel : Nat) (s r : List Char) (cs rem : List Char)
    (h : s.dropWhile wsChar = '"' :: r)
    (hp : parseStrBody (r.length + 1) r = some (cs, rem)) :
    parseVal (fuel + 1) s = some (.str (String.mk cs), rem) := by
  simp [parseVal, h, hp]

theorem parseVal_step_digit (fuel : Nat) (s : List Char) (c : Char) (r : List Char)
    (h : s.dropWhile wsChar = c :: r)
    (h1 : (c == 'n') = false) (h2 : (c == 't') = false) (h3 : (c == 'f') = false)
    (h4 : (c == '"') = false) (h5 : (c == '-') = false) (h6 : c.isDigit = true) :
    parseVal (fuel + 1) s =
      some (.int ((parseDigsAcc (c :: r) 0).1 : Int), (parseDigsAcc (c :: r) 0).2) := by
  simp [parseVal, h, h1, h2, h3, h4, h5, h6]

theorem parseVal_step_minus (fuel : Nat) (s : List Char) (d : Char) (r : List Char)
    (h : s.dropWhile wsChar = '-' :: d :: r) (hd : d.isDigit = true) :
    parseVal (fuel + 1) s =
      some (.int (-((parseDigsAcc (d :: r) 0).1 : Int)), (parseDigsAcc (d :: r) 0).2) := by
  simp [parseVal, h, hd]

theorem parseVal_step_arr_empty (fuel : Nat) (s r : List Char)
    (h : s.dropWhile wsChar = '[' :: r)
    (h2 : r.dropWhile wsChar = ']' :: (r.dropWhile wsChar).tail) :
    parseVal (fuel + 1) s = some (.list [], (r.dropWhile wsChar).tail) := by
  simp only [parseVal, h]
  rw [if_neg (by decide), if_neg (by decide), if_neg (by decide), if_neg (by decide),
    if_neg (by decide), if_neg (by decide), if_pos (by decide)]
  rw [if_pos (by rw [h2]; rfl)]

theorem parseVal_step_arr (fuel : Nat) (s r : List Char) (x : PyVal) (r2 : List Char)
    (xs : List PyVal) (r3 : List Char)
    (h : s.dropWhile wsChar = '[' :: r)
    (hne : (r.dropWhile wsChar).head? ≠ some ']')
    (h1 : parseVal fuel (r.dropWhile wsChar) = some (x, r2))
    (h2 : parseArrRest fuel r2 = some (xs, r3)) :
    parseVal (fuel + 1) s = some (.list (x :: xs), r3) := by
  simp only [parseVal, h]
  rw [if_neg (by decide), if_neg (by decide), if_neg (by decide), if_neg (by decide),
    if_neg (by decide), if_neg (by decide), if_pos (by decide)]
  rw [if_neg hne]
  simp [h1, h2]

theorem parseVal_step_obj_empty (fuel : Nat) (s r : List Char)
    (h : s.dropWhile wsChar = lbrace :: r)
    (h2 : (r.dropWhile wsChar).head? = some rbrace) :
    parseVal (fuel + 1) s = some (.dict [], (r.dropWhile wsChar).tail) := by
  simp only [parseVal, h]
  rw [if_neg (by decide), if_neg (by decide), if_neg (by decide), if_neg (by decide),
    if_neg (by decide), if_neg (by decide), if_neg (by decide), if_pos (by decide)]
  rw [if_pos h2]

theorem parseVal_step_obj (fuel : Nat) (s r : List Char)
    (kvs : List (PyVal × PyVal)) (r2 : List Char)
    (h : s.dropWhile wsChar = lbrace :: r)
    (hne : (r.dropWhile wsChar).head? ≠ some rbrace)
    (h1 : parseObjBody fuel (r.dropWhile wsChar) = some (kvs, r2)) :
    parseVal (fuel + 1) s = some (.dict kvs, r2) := by
  simp only [parseVal, h]
  rw [if_neg (by decide), if_neg (by decide), if_neg (by decide), if_neg (by decide),
    if_neg (by decide), if_neg (by decide), if_neg (by decide), if_pos (by decide)]
  rw [if_neg hne]
  simp [h1]

theorem parseArrRest_step_close (fuel : Nat) (s r : List Char)
    (h : s.dropWhile wsChar = ']' :: r) :
    parseArrRest (fuel + 1) s = some ([], r) := by
  simp [parseArrRest, h]

theorem parseArrRest_step_comma (fuel : Nat) (s r : List Char) (x : PyVal) (r2 : List Char)
    (xs : List PyVal) (r3 : List Char)
    (h : s.dropWhile wsChar = ',' :: r)
    (h1 : parseVal fuel r = some (x, r2))
    (h2 : parseArrRest fuel r2 = some (xs, r3)) :
    parseArrRest (fuel + 1) s = some (x :: xs, r3) := by
  simp [parseArrRest, h, h1, h2]

theorem parseObjBody_step_last (fuel : Nat) (s r : List Char) (kcs : List Char)
    (r2 r3 : List Char) (v : PyVal) (r4 r5 : List Char)
    (h : s.dropWhile wsChar = '"' :: r)
    (h1 : parseStrBody (r.length + 1) r = some (kcs, r2))
    (h2 : r2.dropWhile wsChar = ':' :: r3)
    (h3 : parseVal fuel r3 = some (v, r4))
    (h4 : r4.dropWhile wsChar = rbrace :: r5) :
    parseObjBody (fuel + 1) s = some ([(PyVal.str (String.mk kcs), v)], r5) := by
  simp only [parseObjBody, h, h1, h2, h3, h4]
  rw [if_neg (by decide), if_pos (by decide)]

theorem parseObjBody_step_comma (fuel : Nat) (s r : List Char) (kcs : List Char)
    (r2 r3 : List Char) (v : PyVal) (r4 r5 : List Char)
    (kvs : List (PyVal × PyVal)) (r6 : List Char)
    (h : s.dropWhile wsChar = '"' :: r)
    (h1 : parseStrBody (r.length + 1) r = some (kcs, r2))
    (h2 : r2.dropWhile wsChar = ':' :: r3)
    (h3 : parseVal fuel r3 = some (v, r4))
    (h4 : r4.dropWhile wsChar = ',' :: r5)
    (h5 : parseObjBody fuel r5 = some (kvs, r6)) :
    parseObjBody (fuel + 1) s = some ((PyVal.str (String.mk kcs), v) :: kvs, r6) := by
  simp only [parseObjBody, h, h1, h2, h3, h4]
  rw [if_pos (by decide)]
  simp [h5]

/-! ### The printer-parser round trip -/

theorem ws_prefix_cons (k : Nat) : ('\n' :: indentChars k).all wsChar = true := by
  simp only [List.all_cons, Bool.and_eq_true]
  exact ⟨rfl, indent_all_ws k⟩

theorem dropWhile_ws_nl (s : List Char) :
    ('\n' :: s).dropWhile wsChar = s.dropWhile wsChar := rfl

theorem dropWhile_ws_start (w : List Char) (hw : w.all wsChar = true) (c : Char)
    (hc : wsChar c = false) (s : List Char) :
    (w ++ c :: s).dropWhile wsChar = c :: s := by
  rw [dropWhile_append_all _ _ _ hw]
  exact dropWhile_ws_cons c hc s

mutual

/-- Parsing the printed form of a strict JSON value, after any whitespace
prefix and followed by any continuation that does not begin with a digit,
recovers the value exactly. -/
theorem parseVal_rt : ∀ (fuel : Nat) (j : PyVal) (lvl : Nat) (w cs rest : List Char),
    w.all wsChar = true → dumpVal j lvl = .ok cs → strictJson j = true →
    wV j ≤ fuel → numOk rest = true →
    parseVal fuel (w ++ (cs ++ rest)) = some (j, rest)
  | 0, j, lvl, w, cs, rest, hw, hd, hs, hf, hn => by
    have := wV_pos j
    omega
  | fuel + 1, .none, lvl, w, cs, rest, hw, hd, hs, hf, hn => by
    simp only [dumpVal, Except.ok.injEq] at hd
    subst hd
    apply parseVal_step_null
    rw [dropWhile_append_all _ _ _ hw]
    show ('n' :: ('u' :: 'l' :: 'l' :: rest)).dropWhile wsChar = _
    exact dropWhile_ws_cons 'n' rfl _
  | fuel + 1, .bool true, lvl, w, cs, rest, hw, hd, hs, hf, hn => by
    simp only [dumpVal, Except.ok.injEq] at hd
    subst hd
    apply parseVal_step_true
    rw [dropWhile_append_all _ _ _ hw]
    show ('t' :: ('r' :: 'u' :: 'e' :: rest)).dropWhile wsChar = _
    exact dropWhile_ws_cons 't' rfl _
  | fuel + 1, .bool false, lvl, w, cs, rest, hw, hd, hs, hf, hn => by
    simp only [dumpVal, Except.ok.injEq] at hd
    subst hd
    apply parseVal_step_false
    rw [dropWhile_append_all _ _ _ hw]
    show ('f' :: ('a' :: 'l' :: 's' :: 'e' :: rest)).dropWhile wsChar = _
    exact dropWhile_ws_cons 'f' rfl _
  | fuel + 1, .int n, lvl, w, cs, rest, hw, hd, hs, hf, hn => by
    simp only [dumpVal, Except.ok.injEq] at hd
    subst hd
    cases n with
    | ofNat m =>
      obtain ⟨d, ds, hdlt, hds⟩ := natChars_head m
      obtain ⟨hn1, hn2, hn3, hn4, hn5, hn6, hn7, hn8⟩ := digitChar_dispatch d hdlt
      have hdw : (w ++ (intChars (Int.ofNat m) ++ rest)).dropWhile wsChar =
          Nat.digitChar d :: (ds ++ rest) := by
        rw [dropWhile_append_all _ _ _ hw]
        rw [show intChars (Int.ofNat m) = natChars m from rfl, hds]
        rw [show (Nat.digitChar d :: ds) ++ rest = Nat.digitChar d :: (ds ++ rest) from rfl]
        exact dropWhile_ws_cons _ hn7 _
      rw [parseVal_step_digit fuel _ (Nat.digitChar d) (ds ++ rest) hdw hn1 hn2 hn3 hn4 hn5 hn6]
      have hpd : parseDigsAcc (Nat.digitChar d :: (ds ++ rest)) 0 = (m, rest) := by
        rw [show Nat.digitChar d :: (ds ++ rest) = (Nat.digitChar d :: ds) ++ rest from rfl]
        rw [← hds]
        exact parseDigsAcc_natChars m rest hn
      rw [hpd]
      try simp
    | negSucc m =>
      obtain ⟨d, ds, hdlt, hds⟩ := natChars_head (m + 1)
      obtain ⟨hn1, hn2, hn3, hn4, hn5, hn6, hn7, hn8⟩ := digitChar_dispatch d hdlt
      have hdw : (w ++ (intChars (Int.negSucc m) ++ rest)).dropWhile wsChar =
          '-' :: Nat.digitChar d :: (ds ++ rest) := by
        rw [dropWhile_append_all _ _ _ hw]
        rw [show intChars (Int.negSucc m) = '-' :: natChars (m + 1) from rfl, hds]
        rw [show ('-' :: Nat.digitChar d :: ds) ++ rest =
          '-' :: Nat.digitChar d :: (ds ++ rest) from rfl]
        exact dropWhile_ws_cons '-' rfl _
      rw [parseVal_step_minus fuel _ (Nat.digitChar d) (ds ++ rest) hdw hn6]
      have hpd : parseDigsAcc (Nat.digitChar d :: (ds ++ rest)) 0 = (m + 1, rest) := by
        rw [show Nat.digitChar d :: (ds ++ rest) = (Nat.digitChar d :: ds) ++ rest from rfl]
        rw [← hds]
        exact parseDigsAcc_natChars (m + 1) rest hn
      rw [hpd]
      try simp [Int.negSucc_eq]
  | fuel + 1, .str str0, lvl, w, cs, rest, hw, hd, hs, hf, hn => by
    simp only [dumpVal, Except.ok.injEq] at hd
    subst hd
    have hdw : (w ++ (quoteString str0.data ++ rest)).dropWhile wsChar =
        '"' :: (escString str0.data ++ ('"' :: rest)) := by
      rw [dropWhile_append_all _ _ _ hw]
      rw [show quoteString str0.data ++ rest =
        '"' :: (escString str0.data ++ ('"' :: rest)) from by
        simp [quoteString]]
      exact dropWhile_ws_cons '"' rfl _
    have hp : parseStrBody ((escString str0.data ++ ('"' :: rest)).length + 1)
        (escString str0.data ++ ('"' :: rest)) = some (str0.data, rest) := by
      apply parseStrBody_escString
      have h1 := escString_length str0.data
      simp only [List.length_append, List.length_cons]
      omega
    rw [parseVal_step_str fuel _ _ str0.data rest hdw hp]
    try rw [mk_data]
  | fuel + 1, .ndarray a, lvl, w, cs, rest, hw, hd, hs, hf, hn => by simp [strictJson] at hs
  | fuel + 1, .obj attrs, lvl, w, cs, rest, hw, hd, hs, hf, hn => by simp [strictJson] at hs
  | fuel + 1, .exotic t, lvl, w, cs, rest, hw, hd, hs, hf, hn => by simp [strictJson] at hs
  | fuel + 1, .tuple xs, lvl, w, cs, rest, hw, hd, hs, hf, hn => by simp [strictJson] at hs
  | fuel + 1, .list [], lvl, w, cs, rest, hw, hd, hs, hf, hn => by
    replace hd : dumpArr [] lvl = .ok cs := hd
    simp only [dumpArr, Except.ok.injEq] at hd
    subst hd
    have hr : ((']' :: rest).dropWhile wsChar) = ']' :: rest := dropWhile_ws_cons ']' rfl _
    have hdw : (w ++ ("[]".data ++ rest)).dropWhile wsChar = '[' :: (']' :: rest) := by
      rw [dropWhile_append_all _ _ _ hw]
      show ('[' :: (']' :: rest)).dropWhile wsChar = _
      exact dropWhile_ws_cons '[' rfl _
    rw [parseVal_step_arr_empty fuel _ (']' :: rest) hdw (by rw [hr]; rfl)]
    simp [hr]
  | fuel + 1, .list (x :: xs2), lvl, w, cs, rest, hw, hd, hs, hf, hn => by
    replace hd : dumpArr (x :: xs2) lvl = .ok cs := hd
    replace hs : strictJsonL (x :: xs2) = true := hs
    simp only [dumpArr] at hd
    cases h1 : dumpVal x (lvl + 1) with
    | error e => rw [h1] at hd; simp at hd
    | ok first =>
      rw [h1] at hd
      cases h2 : dumpArrRest xs2 (lvl + 1) with
      | error e => rw [h2] at hd; simp at hd
      | ok more =>
        rw [h2] at hd
        simp only [Except.ok.injEq] at hd
        subst hd
        simp only [strictJsonL, Bool.and_eq_true] at hs
        obtain ⟨hsx, hsxs⟩ := hs
        simp only [wV, wL] at hf
        have hwx : wV x ≤ fuel := by
          have h3 := wL_pos xs2
          omega
        have hwxs : wL xs2 ≤ fuel := by
          have h3 := wV_pos x
          omega
        obtain ⟨c1, cs1, hfirst, hc1ws, hc1br⟩ := dumpVal_head x (lvl + 1) first h1
        subst hfirst
        have hA : numOk (more ++ '\n' :: (indentChars lvl ++ ']' :: rest)) = true :=
          dumpArrRest_numOk xs2 (lvl + 1) more _ h2
        simp only [List.cons_append, List.append_assoc, List.nil_append]
        refine parseVal_step_arr fuel _ _ x
          (more ++ '\n' :: (indentChars lvl ++ ']' :: rest)) xs2 rest
          (dropWhile_ws_start w hw '[' (by decide) _) ?_ ?_ ?_
        · rw [dropWhile_ws_nl, dropWhile_ws_indent, dropWhile_ws_cons c1 hc1ws]
          intro hceq
          simp only [List.head?_cons, Option.some.injEq] at hceq
          rw [hceq] at hc1br
          simp at hc1br
        · rw [dropWhile_ws_nl, dropWhile_ws_indent, dropWhile_ws_cons c1 hc1ws]
          exact parseVal_rt fuel x (lvl + 1) [] (c1 :: cs1)
            (more ++ '\n' :: (indentChars lvl ++ ']' :: rest)) rfl h1 hsx hwx hA
        · exact parseArrRest_rt fuel xs2 (lvl + 1) lvl more rest h2 hsxs hwxs
  | fuel + 1, .dict [], lvl, w, cs, rest, hw, hd, hs, hf, hn => by
    replace hd : dumpObj [] lvl = .ok cs := hd
    simp only [dumpObj, Except.ok.injEq] at hd
    subst hd
    have hr : ((rbrace :: rest).dropWhile wsChar) = rbrace :: rest :=
      dropWhile_ws_cons rbrace (by decide) _
    have hdw : (w ++ ([lbrace, rbrace] ++ rest)).dropWhile wsChar =
        lbrace :: (rbrace :: rest) := by
      rw [dropWhile_append_all _ _ _ hw]
      show (lbrace :: (rbrace :: rest)).dropWhile wsChar = _
      exact dropWhile_ws_cons lbrace (by decide) _
    rw [parseVal_step_obj_empty fuel _ (rbrace :: rest) hdw (by rw [hr]; rfl)]
    simp [hr]
  | fuel + 1, .dict ((k, v) :: kvs2), lvl, w, cs, rest, hw, hd, hs, hf, hn => by
    replace hd : dumpObj ((k, v) :: kvs2) lvl = .ok cs := hd
    replace hs : strictJsonKV ((k, v) :: kvs2) = true := hs
    simp only [dumpObj] at hd
    cases h0 : coerceKey k with
    | error e => rw [h0] at hd; simp at hd
    | ok kcs =>
      rw [h0] at hd
      cases h1 : dumpVal v (lvl + 1) with
      | error e => rw [h1] at hd; simp at hd
      | ok vcs =>
        rw [h1] at hd
        cases h2 : dumpObjRest kvs2 (lvl + 1) with
        | error e => rw [h2] at hd; simp at hd
        | ok more =>
          rw [h2] at hd
          simp only [Except.ok.injEq] at hd
          subst hd
          have hkstr : PyVal.str (String.mk kcs) = k := by
            cases k with
            | str ks =>
              simp only [coerceKey, Except.ok.injEq] at h0
              rw [← h0, mk_data]
            | none => simp [strictJsonKV] at hs
            | bool b => simp [strictJsonKV] at hs
            | int n => simp [strictJsonKV] at hs
            | ndarray a => simp [strictJsonKV] at hs
            | dict d => simp [strictJsonKV] at hs
            | list l => simp [strictJsonKV] at hs
            | tuple t => simp [strictJsonKV] at hs
            | obj o => simp [strictJsonKV] at hs
            | exotic e => simp [strictJsonKV] at hs
          have hfkv : wKV ((k, v) :: kvs2) ≤ fuel := by
            simp only [wV] at hf
            omega
          simp only [quoteString, List.cons_append, List.append_assoc, List.nil_append]
          refine parseVal_step_obj fuel _ _ ((k, v) :: kvs2) rest
            (dropWhile_ws_start w hw lbrace (by decide) _) ?_ ?_
          · rw [dropWhile_ws_nl, dropWhile_ws_indent, dropWhile_ws_cons '"' (by decide)]
            simp only [List.head?_cons, Option.some.injEq]
            decide
          · rw [dropWhile_ws_nl, dropWhile_ws_indent, dropWhile_ws_cons '"' (by decide)]
            have hob := parseObjBody_rt fuel k v kvs2 (lvl + 1) lvl [] kcs vcs more rest
              rfl h0 hkstr h1 h2 hs hfkv
            simpa only [quoteString, List.cons_append, List.append_assoc,
              List.nil_append] using hob
termination_by structural fuel => fuel

/-- Parsing the printed continuation of an array (`",\n<indent><item>"`
repeated, then `"\n<indent>]"`) recovers the remaining items. -/
theorem parseArrRest_rt : ∀ (fuel : Nat) (xs : List PyVal) (ilvl olvl : Nat)
    (cs rest : List Char),
    dumpArrRest xs ilvl = .ok cs → strictJsonL xs = true → wL xs ≤ fuel →
    parseArrRest fuel (cs ++ ('\n' :: (indentChars olvl ++ (']' :: rest)))) = some (xs, rest)
  | 0, xs, ilvl, olvl, cs, rest, hd, hs, hf => by
    have := wL_pos xs
    omega
  | fuel + 1, [], ilvl, olvl, cs, rest, hd, hs, hf => by
    simp only [dumpArrRest, Except.ok.injEq] at hd
    subst hd
    apply parseArrRest_step_close fuel _ rest
    show ('\n' :: (indentChars olvl ++ (']' :: rest))).dropWhile wsChar = _
    rw [dropWhile_ws_nl, dropWhile_ws_indent]
    exact dropWhile_ws_cons ']' rfl _
  | fuel + 1, x :: xs2, ilvl, olvl, cs, rest, hd, hs, hf => by
    simp only [dumpArrRest] at hd
    cases h1 : dumpVal x ilvl with
    | error e => rw [h1] at hd; simp at hd
    | ok scs =>
      rw [h1] at hd
      cases h2 : dumpArrRest xs2 ilvl with
      | error e => rw [h2] at hd; simp at hd
      | ok more =>
        rw [h2] at hd
        simp only [Except.ok.injEq] at hd
        subst hd
        simp only [strictJsonL, Bool.and_eq_true] at hs
        obtain ⟨hsx, hsxs⟩ := hs
        simp only [wL] at hf
        have hwx : wV x ≤ fuel := by
          have h3 := wL_pos xs2
          omega
        have hwxs : wL xs2 ≤ fuel := by
          have h3 := wV_pos x
          omega
        have hA : numOk (more ++ '\n' :: (indentChars olvl ++ ']' :: rest)) = true :=
          dumpArrRest_numOk xs2 ilvl more _ h2
        simp only [List.cons_append, List.append_assoc, List.nil_append]
        refine parseArrRest_step_comma fuel _ _ x
          (more ++ '\n' :: (indentChars olvl ++ ']' :: rest)) xs2 rest
          (dropWhile_ws_cons ',' rfl _) ?_ ?_
        · exact parseVal_rt fuel x ilvl ('\n' :: indentChars ilvl) scs
            (more ++ '\n' :: (indentChars olvl ++ ']' :: rest))
            (ws_prefix_cons ilvl) h1 hsx hwx hA
        · exact parseArrRest_rt fuel xs2 ilvl olvl more rest h2 hsxs hwxs
termination_by structural fuel => fuel

/-- Parsing printed object entries (after any whitespace) recovers the
entries exactly: the first key-value pair, its printed continuation, and
the closing line. -/
theorem parseObjBody_rt : ∀ (fuel : Nat) (k v : PyVal) (kvs : List (PyVal × PyVal))
    (ilvl olvl : Nat) (w kcs vcs more rest : List Char),
    w.all wsChar = true →
    coerceKey k = .ok kcs →
    PyVal.str (String.mk kcs) = k →
    dumpVal v ilvl = .ok vcs →
    dumpObjRest kvs ilvl = .ok more →
    strictJsonKV ((k, v) :: kvs) = true →
    wKV ((k, v) :: kvs) ≤ fuel →
    parseObjBody fuel (w ++ (quoteString kcs ++ ':' :: ' ' :: (vcs ++ (more ++
      '\n' :: (indentChars olvl ++ rbrace :: rest))))) = some ((k, v) :: kvs, rest)
  | 0, k, v, kvs, ilvl, olvl, w, kcs, vcs, more, rest, hw, h0, hkstr, h1, h2, hs, hf => by
    have h3 := wV_pos v
    have h4 := wKV_pos kvs
    simp only [wKV] at hf
    omega
  | fuel + 1, k, v, [], ilvl, olvl, w, kcs, vcs, more, rest, hw, h0, hkstr, h1, h2, hs, hf => by
    have hs' := hs
    simp only [strictJsonKV, Bool.and_eq_true] at hs'
    obtain ⟨⟨hsk, hsv⟩, hskvs⟩ := hs'
    simp only [wKV] at hf
    have hwv : wV v ≤ fuel := by omega
    simp only [dumpObjRest, Except.ok.injEq] at h2
    subst h2
    rw [← hkstr]
    simp only [quoteString, List.cons_append, List.append_assoc, List.nil_append]
    have harg := dropWhile_ws_start w hw '"' (by decide)
      (escString kcs ++ '"' :: ':' :: ' ' :: (vcs ++
        '\n' :: (indentChars olvl ++ rbrace :: rest)))
    have hkey : parseStrBody ((escString kcs ++ '"' :: ':' :: ' ' :: (vcs ++
        '\n' :: (indentChars olvl ++ rbrace :: rest))).length + 1)
        (escString kcs ++ '"' :: ':' :: ' ' :: (vcs ++
        '\n' :: (indentChars olvl ++ rbrace :: rest))) =
        some (kcs, ':' :: ' ' :: (vcs ++ '\n' :: (indentChars olvl ++ rbrace :: rest))) := by
      apply parseStrBody_escString
      have h5 := escString_length kcs
      simp only [List.length_append, List.length_cons]
      omega
    have hval : parseVal fuel (' ' :: (vcs ++ '\n' :: (indentChars olvl ++ rbrace :: rest))) =
        some (v, '\n' :: (indentChars olvl ++ rbrace :: rest)) :=
      parseVal_rt fuel v ilvl [' '] vcs
        ('\n' :: (indentChars olvl ++ rbrace :: rest)) rfl h1 hsv hwv rfl
    have hclose : (('\n' :: (indentChars olvl ++ rbrace :: rest)).dropWhile wsChar) =
        rbrace :: rest := by
      rw [dropWhile_ws_nl, dropWhile_ws_indent]
      exact dropWhile_ws_cons rbrace (by decide) _
    exact parseObjBody_step_last fuel _ _ kcs _ _ v _ rest
      harg hkey (dropWhile_ws_cons ':' rfl _) hval hclose
  | fuel + 1, k, v, (k2, v2) :: kvs2, ilvl, olvl, w, kcs, vcs, more, rest,
      hw, h0, hkstr, h1, h2, hs, hf => by
    have hs' := hs
    simp only [strictJsonKV, Bool.and_eq_true] at hs'
    obtain ⟨⟨hsk, hsv⟩, hskvs'⟩ := hs'
    have hskvs : strictJsonKV ((k2, v2) :: kvs2) = true := by
      simp only [strictJsonKV, Bool.and_eq_true]
      exact hskvs'
    have hwv : wV v ≤ fuel := by
      have h3 := wKV_pos ((k2, v2) :: kvs2)
      simp only [wKV] at hf ⊢
      omega
    have hwkvs : wKV ((k2, v2) :: kvs2) ≤ fuel := by
      have h3 := wV_pos v
      simp only [wKV] at hf ⊢
      omega
    simp only [dumpObjRest] at h2
    cases h20 : coerceKey k2 with
    | error e => rw [h20] at h2; simp at h2
    | ok kcs2 =>
      rw [h20] at h2
      cases h21 : dumpVal v2 ilvl with
      | error e => rw [h21] at h2; simp at h2
      | ok vcs2 =>
        rw [h21] at h2
        cases h22 : dumpObjRest kvs2 ilvl with
        | error e => rw [h22] at h2; simp at h2
        | ok more2 =>
          rw [h22] at h2
          simp only [Except.ok.injEq] at h2
          subst h2
          have hkstr2 : PyVal.str (String.mk kcs2) = k2 := by
            cases k2 with
            | str ks =>
              simp only [coerceKey, Except.ok.injEq] at h20
              rw [← h20, mk_data]
            | none => simp [strictJsonKV] at hskvs
            | bool b => simp [strictJsonKV] at hskvs
            | int n => simp [strictJsonKV] at hskvs
            | ndarray a => simp [strictJsonKV] at hskvs
            | dict d => simp [strictJsonKV] at hskvs
            | list l => simp [strictJsonKV] at hskvs
            | tuple t => simp [strictJsonKV] at hskvs
            | obj o => simp [strictJsonKV] at hskvs
            | exotic e => simp [strictJsonKV] at hskvs
          rw [← hkstr]
          simp only [quoteString, List.cons_append, List.append_assoc, List.nil_append]
          have harg := dropWhile_ws_start w hw '"' (by decide)
            (escString kcs ++ '"' :: ':' :: ' ' :: (vcs ++ ',' :: '\n' :: (indentChars ilvl ++ ('"' :: (escString kcs2 ++ '"' :: ':' :: ' ' :: (vcs2 ++ (more2 ++ '\n' :: (indentChars olvl ++ rbrace :: rest))))))))
          have hkey : parseStrBody ((escString kcs ++ '"' :: ':' :: ' ' :: (vcs ++ ',' :: '\n' :: (indentChars ilvl ++ ('"' :: (escString kcs2 ++ '"' :: ':' :: ' ' :: (vcs2 ++ (more2 ++ '\n' :: (indentChars olvl ++ rbrace :: rest)))))))).length + 1)
              (escString kcs ++ '"' :: ':' :: ' ' :: (vcs ++ ',' :: '\n' :: (indentChars ilvl ++ ('"' :: (escString kcs2 ++ '"' :: ':' :: ' ' :: (vcs2 ++ (more2 ++ '\n' :: (indentChars olvl ++ rbrace :: rest)))))))) =
              some (kcs, ':' :: ' ' :: (vcs ++ ',' :: '\n' :: (indentChars ilvl ++ ('"' :: (escString kcs2 ++ '"' :: ':' :: ' ' :: (vcs2 ++ (more2 ++ '\n' :: (indentChars olvl ++ rbrace :: rest)))))))) := by
            apply parseStrBody_escString
            have h5 := escString_length kcs
            simp only [List.length_append, List.length_cons]
            omega
          have hval : parseVal fuel (' ' :: (vcs ++ ',' :: '\n' :: (indentChars ilvl ++ ('"' :: (escString kcs2 ++ '"' :: ':' :: ' ' :: (vcs2 ++ (more2 ++ '\n' :: (indentChars olvl ++ rbrace :: rest)))))))) =
              some (v, ',' :: '\n' :: (indentChars ilvl ++ ('"' :: (escString kcs2 ++ '"' :: ':' :: ' ' :: (vcs2 ++ (more2 ++ '\n' :: (indentChars olvl ++ rbrace :: rest))))))) :=
            parseVal_rt fuel v ilvl [' '] vcs
              (',' :: '\n' :: (indentChars ilvl ++ ('"' :: (escString kcs2 ++ '"' :: ':' :: ' ' :: (vcs2 ++ (more2 ++ '\n' :: (indentChars olvl ++ rbrace :: rest))))))) rfl h1 hsv hwv rfl
          have hcomma : ((',' :: '\n' :: (indentChars ilvl ++ ('"' :: (escString kcs2 ++ '"' :: ':' :: ' ' :: (vcs2 ++ (more2 ++ '\n' :: (indentChars olvl ++ rbrace :: rest))))))).dropWhile wsChar) =
              ',' :: '\n' :: (indentChars ilvl ++ ('"' :: (escString kcs2 ++ '"' :: ':' :: ' ' :: (vcs2 ++ (more2 ++ '\n' :: (indentChars olvl ++ rbrace :: rest)))))) :=
            dropWhile_ws_cons ',' rfl _
          have hbody : parseObjBody fuel ('\n' :: (indentChars ilvl ++ ('"' :: (escString kcs2 ++ '"' :: ':' :: ' ' :: (vcs2 ++ (more2 ++ '\n' :: (indentChars olvl ++ rbrace :: rest))))))) =
              some ((k2, v2) :: kvs2, rest) := by
            have hob := parseObjBody_rt fuel k2 v2 kvs2 ilvl olvl ('\n' :: indentChars ilvl)
              kcs2 vcs2 more2 rest (ws_prefix_cons ilvl) h20 hkstr2 h21 h22 hskvs hwkvs
            simpa only [quoteString, List.cons_append, List.append_assoc,
              List.nil_append] using hob
          exact parseObjBody_step_comma fuel _ _ kcs _ _ v _ _ _ rest
            harg hkey (dropWhile_ws_cons ':' rfl _) hval hcomma hbody
termination_by structural fuel => fuel

end

/-- Parsing the full `json.dump(..., indent=2)` output of a strict JSON
value recovers the value: the parser is a left inverse of the encoder. -/
theorem loads_dumps (j : PyVal) (cs : List Char) (hd : dumps j = .ok cs)
    (hs : strictJson j = true) : loads (String.mk cs) = some j := by
  have hlen : wV j ≤ cs.length + 1 := Nat.le_succ_of_le (wV_le j 0 cs hd)
  have hp := parseVal_rt (cs.length + 1) j 0 [] cs [] rfl hd hs hlen rfl
  simp only [List.nil_append, List.append_nil] at hp
  unfold loads
  rw [show (String.mk cs).data = cs from rfl]
  rw [hp]
  rfl

/-! ### Model of `save_params` -/

/-- `open(path, 'w')` followed by a complete `json.dump`: any previous entry
for `path` is replaced by the new content.  (In CPython a dump that raises
mid-write leaves a truncated file behind; the model collapses every failing
run to "no write", a difference invisible to the success-conditional
properties proved below.) -/
def writeFile (fs : FS) (p : String) (content : String) : FS :=
  ⟨fs.dirs, (fs.files.filter (fun kv => !(kv.1 == p))) ++ [(p, content)]⟩

/-- Content of the file at `p`, if any. -/
def readFile (fs : FS) (p : String) : Option String :=
  (fs.files.find? (fun kv => kv.1 == p)).map (fun kv => kv.2)

/-- Model of `XManager.save_params` (src/xmanager.py lines 129-132):
resolve `params.json` under the run directory with `get_path` (which ensures
the run directory exists), serialize the instance with `get_params`, encode
the result as 2-space-indented JSON text and write it to the resolved path.
The unchanged in-memory state is returned alongside the new filesystem. -/
def save_params (ctx : XMState) (fs : FS) : Except PyErr (XMState × FS) :=
  match get_path ctx fs ["params.json"] true with
  | .error e => .error e
  | .ok (p, fs1) =>
    match get_params ctx with
    | .error e => .error e
    | .ok params =>
      match dumps params with
      | .error e => .error e
      | .ok cs => .ok (ctx, writeFile fs1 p (String.mk cs))

theorem mkdir_of_mem (fs : FS) (p : String) (h : p ∈ fs.dirs) :
    mkdir fs p true true = .ok fs := by
  unfold mkdir
  rw [if_pos h]
  rfl

theorem get_path_ok_inv (ctx : XMState) (fs : FS) (segs : List String) (p : String)
    (fs' : FS) (h : get_path ctx fs segs true = .ok (p, fs')) :
    p = joinPath ctx.x_dir segs ∧ _ensure_dir fs (joinPath ctx.x_dir segs) = .ok fs' := by
  unfold get_path at h
  rw [if_pos rfl] at h
  cases he : _ensure_dir fs (joinPath ctx.x_dir segs) with
  | error e =>
    rw [he] at h
    simp at h
  | ok fsa =>
    rw [he] at h
    simp only [Except.ok.injEq, Prod.mk.injEq] at h
    exact ⟨h.1.symm, by rw [h.2]⟩

theorem find_in_writeFile : ∀ (l : List (String × String)) (p c : String),
    ((l.filter (fun kv => !(kv.1 == p)) ++ [(p, c)]).find? (fun kv => kv.1 == p)) =
      some (p, c)
  | [], p, c => by simp [List.find?]
  | (q, d) :: t, p, c => by
    by_cases hq : q = p
    · subst hq
      simp [List.filter_cons, find_in_writeFile t q c]
    · have hqb : (q == p) = false := beq_eq_false_iff_ne.mpr hq
      simp [List.filter_cons, hqb, List.find?_cons, find_in_writeFile t p c]

theorem readFile_writeFile (fs : FS) (p c : String) :
    readFile (writeFile fs p c) p = some c := by
  unfold readFile writeFile
  rw [find_in_writeFile fs.files p c]
  rfl

theorem writeFile_idem (fs : FS) (p c : String) :
    writeFile (writeFile fs p c) p c = writeFile fs p c := by
  unfold writeFile
  simp only [FS.mk.injEq, true_and]
  rw [List.filter_append]
  have h1 : ([(p, c)].filter (fun kv : String × String => !(kv.1 == p))) = [] := by simp
  have h2 : ((fs.files.filter (fun kv => !(kv.1 == p))).filter
      (fun kv : String × String => !(kv.1 == p))) =
      fs.files.filter (fun kv => !(kv.1 == p)) :=
    List.filter_eq_self.mpr (fun a ha => (List.mem_filter.mp ha).2)
  rw [h1, List.append_nil, h2]

/-- Successful `save_params` runs decompose into their three steps: the
resolved path is `x_dir/params.json`, serialization and encoding succeed,
the in-memory state is returned unchanged, and the new filesystem is the old
one (after the directory ensure) with the encoded text written at the path. -/
theorem save_params_ok_inv (ctx : XMState) (fs : FS) (ctx1 : XMState) (fs1 : FS)
    (h : save_params ctx fs = .ok (ctx1, fs1)) :
    ∃ fsa params cs,
      get_path ctx fs ["params.json"] true = .ok (joinPath ctx.x_dir ["params.json"], fsa) ∧
      get_params ctx = .ok params ∧ dumps params = .ok cs ∧ ctx1 = ctx ∧
      fs1 = writeFile fsa (joinPath ctx.x_dir ["params.json"]) (String.mk cs) := by
  unfold save_params at h
  cases hgp : get_path ctx fs ["params.json"] true with
  | error e => simp [hgp] at h
  | ok pr =>
    obtain ⟨p, fsa⟩ := pr
    simp only [hgp] at h
    obtain ⟨hpeq, hens⟩ := get_path_ok_inv ctx fs ["params.json"] p fsa hgp
    subst hpeq
    cases hpar : get_params ctx with
    | error e => simp [hpar] at h
    | ok params =>
      simp only [hpar] at h
      cases hdm : dumps params with
      | error e => simp [hdm] at h
      | ok cs =>
        simp only [hdm, Except.ok.injEq, Prod.mk.injEq] at h
        exact ⟨fsa, params, cs, rfl, rfl, hdm, h.1.symm, h.2.symm⟩

/-- C6 (amended): whenever `save_params` succeeds and the serialized mapping
is strict JSON (in particular: all mapping keys at every depth are strings),
the file `params.json` under the run directory holds exactly the 2-space
indented JSON text of the mapping, and reading and parsing it back yields a
value deep-equal to the result of `get_params`. -/
theorem save_params_roundtrip (ctx : XMState) (fs : FS) (ctx1 : XMState) (fs1 : FS)
    (params : PyVal)
    (hok : save_params ctx fs = .ok (ctx1, fs1))
    (hp : get_params ctx = .ok params)
    (hs : strictJson params = true) :
    ∃ cs, dumps params = .ok cs ∧
      readFile fs1 (joinPath ctx.x_dir ["params.json"]) = some (String.mk cs) ∧
      loads (String.mk cs) = some params := by
  obtain ⟨fsa, params', cs, hgp, hp', hdm, hctx, hfs⟩ :=
    save_params_ok_inv ctx fs ctx1 fs1 hok
  rw [hp] at hp'
  have hpe : params = params' := by
    simpa using hp'
  subst hpe
  refine ⟨cs, hdm, ?_, loads_dumps params cs hdm hs⟩
  rw [hfs]
  exact readFile_writeFile fsa _ _

def jsonC6text : String := "\x7b\n  \"d\": \x7b\n    \"1\": 2\n  \x7d\n\x7d"

def jsonC6w : String := "\x7b\n  \"a\": 1\n\x7d"

/-- C6 (counterexample): a context holding the mapping `{'d': {1: 2}}` --
legal, since `jsonfy` keeps non-string keys -- serializes and saves
successfully, but the file contains the key-coerced text `{"d": {"1": 2}}`,
and parsing it back yields a mapping with the string key `"1"`, which is not
deep-equal to `get_params`'s result with the integer key `1`. -/
theorem save_params_readback_cex :
    (Except.map (fun r => readFile r.2 "/e/t/params.json")
        (save_params ⟨"/e/t", [("d", PyVal.dict [(.int 1, .int 2)])]⟩ ⟨["/e/t"], []⟩) =
      .ok (some jsonC6text)) ∧
    get_params ⟨"/e/t", [("d", PyVal.dict [(.int 1, .int 2)])]⟩ =
      .ok (.dict [(.str "d", .dict [(.int 1, .int 2)])]) ∧
    loads jsonC6text = some (.dict [(.str "d", .dict [(.str "1", .int 2)])]) ∧
    PyVal.dict [(.str "d", .dict [(.str "1", .int 2)])] ≠
      PyVal.dict [(.str "d", .dict [(.int 1, .int 2)])] :=
  ⟨by decide, by decide, by decide, by decide⟩

theorem save_params_roundtrip_witness :
    ∃ cs, dumps (.dict [(.str "a", .int 1)]) = .ok cs ∧
      readFile ⟨["/e/t"], [("/e/t/params.json", jsonC6w)]⟩
        (joinPath "/e/t" ["params.json"]) = some (String.mk cs) ∧
      loads (String.mk cs) = some (.dict [(.str "a", .int 1)]) :=
  save_params_roundtrip ⟨"/e/t", [("a", .int 1)]⟩ ⟨["/e/t"], []⟩
    ⟨"/e/t", [("a", .int 1)]⟩ ⟨["/e/t"], [("/e/t/params.json", jsonC6w)]⟩
    (.dict [(.str "a", .int 1)]) (by rfl) (by rfl) (by rfl)

/-- C9: `get_params` and `save_params` leave the in-memory state unchanged
(the returned context is the argument itself; `del` acts on the fresh dict
built by `jsonfy`, never on the instance), and a second `save_params` on the
resulting filesystem succeeds and re-writes the same file with the same
content, leaving the filesystem fixed. -/
theorem save_params_frame (ctx : XMState) (fs : FS) (ctx1 : XMState) (fs1 : FS)
    (h : save_params ctx fs = .ok (ctx1, fs1)) :
    ctx1 = ctx ∧ save_params ctx fs1 = .ok (ctx, fs1) := by
  obtain ⟨fsa, params, cs, hgp, hpar, hdm, hctx, hfs⟩ :=
    save_params_ok_inv ctx fs ctx1 fs1 h
  obtain ⟨hpeq, hens⟩ :=
    get_path_ok_inv ctx fs ["params.json"] (joinPath ctx.x_dir ["params.json"]) fsa hgp
  refine ⟨hctx, ?_⟩
  subst hfs
  have hq : _ensure_dir
      (writeFile fsa (joinPath ctx.x_dir ["params.json"]) (String.mk cs))
      (joinPath ctx.x_dir ["params.json"]) =
      .ok (writeFile fsa (joinPath ctx.x_dir ["params.json"]) (String.mk cs)) := by
    unfold _ensure_dir at hens ⊢
    have hmem := mkdir_mem_ok fs fsa _ hens
    exact mkdir_of_mem _ _ hmem
  unfold save_params
  simp only [get_path_ensure ctx _ ["params.json"] _ hq, hpar, hdm]
  rw [writeFile_idem]

theorem save_params_frame_witness :
    (⟨"/e/t", [("a", PyVal.int 1)]⟩ : XMState) = ⟨"/e/t", [("a", PyVal.int 1)]⟩ ∧
    save_params ⟨"/e/t", [("a", PyVal.int 1)]⟩
        ⟨["/e/t"], [("/e/t/params.json", jsonC6w)]⟩ =
      .ok (⟨"/e/t", [("a", PyVal.int 1)]⟩, ⟨["/e/t"], [("/e/t/params.json", jsonC6w)]⟩) :=
  save_params_frame ⟨"/e/t", [("a", PyVal.int 1)]⟩ ⟨["/e/t"], []⟩
    ⟨"/e/t", [("a", PyVal.int 1)]⟩ ⟨["/e/t"], [("/e/t/params.json", jsonC6w)]⟩ (by rfl)

end XManager
